import Mathlib

/-!
KSM-to-core patcher (`pkg/patcher/ksm`)

A shallow embedding of `model.go` and `patcher.go`.

* Go strings are sequences of characters (`List Char`): the documents are
  decoded from JSON, so their strings are valid UTF-8.  Every pattern of the
  package is ASCII, so matching on characters and on UTF-8 bytes agree, and the
  byte slices `match[1 : len(match)-1]`, `match[:len(match)-5]` and `v[1:]` cut
  at character boundaries.
* Go's in-place mutation is explicit state passing: each function returns the
  document and the used-variable set as they stand when it returns.
* A `map[string]struct{}` that may be `nil` is an `Option (Finset (List Char))`.
-/

namespace Ksm

/-! ## Strings -/

/-- The function `strings.Contains(s, substr)`. -/
def stringsContains : List Char → List Char → Bool
  | [], substr => substr.isPrefixOf []
  | c :: cs, substr => substr.isPrefixOf (c :: cs) || stringsContains cs substr

/-- A piece of a scanned string: a character outside every match, or the text of one match. -/
inductive Piece where
  | lit (c : Char)
  | hit (m : List Char)
deriving DecidableEq, Repr

/-- Left-to-right scan for successive non-overlapping matches, shared by
`regexp.(*Regexp).replaceAll`, `regexp.(*Regexp).allMatches` and
`strings.(*genericReplacer).WriteString`.  `matchAt s` is the length of the
match that starts at the head of `s`, if there is one; the search resumes right
after the end of a match.  The second argument counts the characters that still
belong to the previous match.  None of the package's patterns matches the empty
string. -/
def scan (matchAt : List Char → Option Nat) : List Char → Nat → List Piece
  | [], _ => []
  | _ :: cs, k + 1 => scan matchAt cs k
  | c :: cs, 0 =>
    match matchAt (c :: cs) with
    | some (n + 1) => Piece.hit ((c :: cs).take (n + 1)) :: scan matchAt cs n
    | _ => Piece.lit c :: scan matchAt cs 0

/-- The method `(*Regexp).FindAllString(s, -1)`: the texts of the matches, in order. -/
def findAllString (matchAt : List Char → Option Nat) (s : List Char) : List (List Char) :=
  (scan matchAt s 0).filterMap fun p =>
    match p with
    | Piece.hit m => some m
    | Piece.lit _ => none

/-- The method `(*Regexp).ReplaceAllStringFunc(src, repl)` for a callback that
reads and writes captured variables of type `σ`: unmatched characters are
copied, each match is replaced by what the callback returns, and the callback
runs on the matches from left to right. -/
def replaceAllStringFunc {σ : Type} (matchAt : List Char → Option Nat)
    (repl : σ → List Char → σ × List Char) (src : List Char) (st : σ) : σ × List Char :=
  (scan matchAt src 0).foldl
    (fun acc p =>
      match p with
      | Piece.lit c => (acc.1, acc.2 ++ [c])
      | Piece.hit m => ((repl acc.1 m).1, acc.2 ++ (repl acc.1 m).2))
    (st, [])

/-! ## `model.go`: tables and patterns -/

/-- The table `ksmTagMapping`. -/
def ksmTagMapping : List (List Char × List Char) :=
  [ ("cluster_name".toList, "kube_cluster_name".toList),
    ("container".toList, "kube_container_name".toList),
    ("cronjob".toList, "kube_cronjob".toList),
    ("daemonset".toList, "kube_daemon_set".toList),
    ("deployment".toList, "kube_deployment".toList),
    ("hpa".toList, "horizontalpodautoscaler".toList),
    ("image".toList, "image_name".toList),
    ("job".toList, "kube_job".toList),
    ("job_name".toList, "kube_job".toList),
    ("namespace".toList, "kube_namespace".toList),
    ("phase".toList, "pod_phase".toList),
    ("pod".toList, "pod_name".toList),
    ("replicaset".toList, "kube_replica_set".toList),
    ("replicationcontroller".toList, "kube_replication_controller".toList),
    ("statefulset".toList, "kube_stateful_set".toList) ]

/-- The pairs given to `strings.NewReplacer` for `ksmMetricsReplacer`, in argument order. -/
def ksmMetricsPairs : List (List Char × List Char) :=
  [ ("kubernetes_state.nodes.by_condition".toList, "kubernetes_state.node.by_condition".toList),
    ("kubernetes_state.persistentvolumes.by_phase".toList,
      "kubernetes_state.persistentvolume.by_phase".toList) ]

/-- The generic `strings.Replacer` at one position: the first old string, in
argument order, that is a prefix of the rest of the input. -/
def replacerMatchAt (pairs : List (List Char × List Char)) (s : List Char) : Option Nat :=
  pairs.findSome? fun p => if p.1.isPrefixOf s then some p.1.length else none

/-- The method `(*Replacer).Replace`. -/
def replacerReplace (pairs : List (List Char × List Char)) (s : List Char) : List Char :=
  (replaceAllStringFunc (replacerMatchAt pairs)
    (fun (u : Unit) m => (u, (pairs.lookup m).getD m)) s ()).2

/-- The replacer `ksmMetricsReplacer`. -/
def ksmMetricsReplacer (s : List Char) : List Char :=
  replacerReplace ksmMetricsPairs s

/-- The function `ksmOriginalTags`: the keys of `ksmTagMapping`.  Go leaves the
iteration order of a map unspecified; the order of the table is taken here, and
the patterns below take the list of alternatives as an argument. -/
def ksmOriginalTags : List (List Char) :=
  ksmTagMapping.map Prod.fst

/-- The class `[\{\, ]`. -/
def isLeftDelim (c : Char) : Bool :=
  c == '{' || c == ',' || c == ' '

/-- The class `[\}\:\, ]`. -/
def isRightDelim (c : Char) : Bool :=
  c == '}' || c == ':' || c == ',' || c == ' '

/-- The pattern `[\{\, ](t1|...|tn)[\}\:\, ]` at the head of `s`, with
leftmost-first alternation: the first alternative, in order, with which the
whole pattern matches. -/
def tagRegexpMatchAt (tags : List (List Char)) : List Char → Option Nat
  | [] => none
  | d :: rest =>
    if isLeftDelim d then
      tags.findSome? fun t =>
        if t.isPrefixOf rest && ((rest.drop t.length).head?.map isRightDelim).getD false then
          some (t.length + 2)
        else none
    else none

/-- The pattern `ksmTagReplaceRegexp`. -/
def ksmTagReplaceRegexp : List Char → Option Nat :=
  tagRegexpMatchAt ksmOriginalTags

/-- The class `[a-zA-Z0-9_-]`. -/
def isVarChar (c : Char) : Bool :=
  c.isAlphanum || c == '_' || c == '-'

/-- The pattern `variableReferenceRegexp`, with a greedy `+`. -/
def variableReferenceRegexp : List Char → Option Nat
  | [] => none
  | c :: rest =>
    if c == '$' && ((rest.head?.map isVarChar).getD false) then
      some ((rest.takeWhile isVarChar).length + 1)
    else none

/-- The pattern `(t1|...|tn)\.name` at the head of `s`, with leftmost-first alternation. -/
def templateRegexpMatchAt (tags : List (List Char)) (s : List Char) : Option Nat :=
  tags.findSome? fun t =>
    if (t ++ ".name".toList).isPrefixOf s then some (t.length + 5) else none

/-- The pattern `templateVarRegexp`. -/
def templateVarRegexp : List Char → Option Nat :=
  templateRegexpMatchAt ksmOriginalTags

/-- The error built by `fmt.Errorf("matched tag but unable to find replacement %s", tag)`. -/
structure MappingError where
  tag : List Char
deriving DecidableEq, Repr

/-- The struct `patchResult`; a nil `err` is `none`. -/
structure patchResult where
  err : Option MappingError
  patched : List Char
deriving DecidableEq, Repr

/-- The callback of `patchQueryString`; its captured variable is `res.err`. -/
def queryCallback (err : Option MappingError) (m : List Char) :
    Option MappingError × List Char :=
  match ksmTagMapping.lookup ((m.drop 1).take (m.length - 2)) with
  | none => (some ⟨(m.drop 1).take (m.length - 2)⟩, m)
  | some newTag => (err, m.take 1 ++ newTag ++ m.drop (m.length - 1))

/-- The tag substitution of `patchQueryString`: the final `res.err` and `patchedQuery`. -/
def replaceTags (query : List Char) : Option MappingError × List Char :=
  replaceAllStringFunc ksmTagReplaceRegexp queryCallback query none

/-- The insertions `usedVariables[v[1:]] = struct{}{}` for the matches `varMatch`. -/
def addVariables (varMatch : List (List Char)) (used : Finset (List Char)) :
    Finset (List Char) :=
  varMatch.foldl (fun acc v => insert (v.drop 1) acc) used

/-- The function `patchQueryString`, with the used-variable map as it is on return. -/
def patchQueryString (query : List Char) (usedVariables : Option (Finset (List Char))) :
    patchResult × Option (Finset (List Char)) :=
  if !stringsContains query "kubernetes_state.".toList then
    (⟨none, []⟩, usedVariables)
  else
    let used := usedVariables.map (addVariables (findAllString variableReferenceRegexp query))
    match replaceTags query with
    | (some e, _) => (⟨some e, []⟩, used)
    | (none, patchedQuery) =>
      if ksmMetricsReplacer patchedQuery ≠ query then
        (⟨none, ksmMetricsReplacer patchedQuery⟩, used)
      else (⟨none, []⟩, used)

/-- The callback of `patchTemplateString`; its captured variables are `patched` and `res.err`. -/
def templateCallback (st : Bool × Option MappingError) (m : List Char) :
    (Bool × Option MappingError) × List Char :=
  match ksmTagMapping.lookup (m.take (m.length - 5)) with
  | none => ((st.1, some ⟨m.take (m.length - 5)⟩), m)
  | some newTag => ((true, st.2), newTag ++ ".name".toList)

/-- The function `patchTemplateString`. -/
def patchTemplateString (templateString : List Char) : patchResult :=
  match replaceAllStringFunc templateVarRegexp templateCallback templateString (false, none) with
  | ((patched, err), patchedTemplate) =>
    if patched then ⟨err, patchedTemplate⟩ else ⟨err, []⟩

/-! ## `model.go`: requests -/

/-- The union `datadogV1.FormulaAndFunctionQueryDefinition`: the variant
`FormulaAndFunctionMetricQueryDefinition` with its `Name` and `Query`, or one of
the other variants, which the patcher never reads. -/
inductive FormulaAndFunctionQueryDefinition where
  | metric (name : List Char) (query : List Char)
  | other (payload : List Char)
deriving DecidableEq, Repr

/-- What `requestWidgetInterface` exposes of a widget request: the optional
inline query `Q` and the optional list `Queries`. -/
structure Request where
  q : Option (List Char)
  queries : Option (List FormulaAndFunctionQueryDefinition)
deriving DecidableEq, Repr

/-- What a rewriting function returns together with the state it leaves
behind: the `bool` and `error` results, the document as mutated so far and the
used-variable map. -/
structure Outcome (α : Type) where
  changed : Bool
  err : Option MappingError
  doc : α
  used : Option (Finset (List Char))

/-- The loop `for i := range *queries` of `patchRequestWidget`, started with
the current `widgetPatched`. -/
def patchQueries : List FormulaAndFunctionQueryDefinition → Bool →
    Option (Finset (List Char)) → Outcome (List FormulaAndFunctionQueryDefinition)
  | [], widgetPatched, used => ⟨widgetPatched, none, [], used⟩
  | FormulaAndFunctionQueryDefinition.other p :: rest, widgetPatched, used =>
    let r := patchQueries rest widgetPatched used
    ⟨r.changed, r.err, FormulaAndFunctionQueryDefinition.other p :: r.doc, r.used⟩
  | FormulaAndFunctionQueryDefinition.metric n query :: rest, widgetPatched, used =>
    let res := patchQueryString query used
    match res.1.err with
    | some e =>
      ⟨widgetPatched, some e, FormulaAndFunctionQueryDefinition.metric n query :: rest, res.2⟩
    | none =>
      if res.1.patched ≠ [] then
        let r := patchQueries rest true res.2
        ⟨r.changed, r.err, FormulaAndFunctionQueryDefinition.metric n res.1.patched :: r.doc,
          r.used⟩
      else
        let r := patchQueries rest widgetPatched res.2
        ⟨r.changed, r.err, FormulaAndFunctionQueryDefinition.metric n query :: r.doc, r.used⟩

/-- The second half of `patchRequestWidget`: the `Queries` field, when set. -/
def patchRequestQueries (req : Request) (widgetPatched : Bool)
    (used : Option (Finset (List Char))) : Outcome Request :=
  match req.queries with
  | none => ⟨widgetPatched, none, req, used⟩
  | some queries =>
    let r := patchQueries queries widgetPatched used
    ⟨r.changed, r.err, { req with queries := some r.doc }, r.used⟩

/-- The function `patchRequestWidget`. -/
def patchRequestWidget (reqWidget : Request) (usedVariables : Option (Finset (List Char))) :
    Outcome Request :=
  match reqWidget.q with
  | none => patchRequestQueries reqWidget false usedVariables
  | some q =>
    let res := patchQueryString q usedVariables
    match res.1.err with
    | some e => ⟨false, some e, reqWidget, res.2⟩
    | none =>
      if res.1.patched ≠ [] then
        patchRequestQueries { reqWidget with q := some res.1.patched } true res.2
      else patchRequestQueries reqWidget false res.2

/-! ## `patcher.go` -/

/-- The union `datadogV1.WidgetDefinition` inside a `datadogV1.Widget`: the
seven variants `patchWidgets` looks at, or any other widget kind.  The union is
a one-of: a definition decoded from JSON, as `cmd/patch.go` does, has at most
one variant set, so at most one `if ... != nil` block of the loop applies. -/
inductive Widget where
  | group (widgets : List Widget)
  | change (requests : List Request)
  | table (requests : List Request)
  | queryValue (requests : List Request)
  | timeseries (requests : List Request)
  | toplist (requests : List Request)
  | treeMap (requests : List Request)
  | other (kind : List Char)

/-- The loops `for reqIndex := range ...Requests` of `patchWidgets`, started
with the current `widgetsPatched`; an error returns `false`. -/
def patchRequests : List Request → Bool → Option (Finset (List Char)) →
    Outcome (List Request)
  | [], widgetsPatched, used => ⟨widgetsPatched, none, [], used⟩
  | req :: rest, widgetsPatched, used =>
    let p := patchRequestWidget req used
    match p.err with
    | some e => ⟨false, some e, p.doc :: rest, p.used⟩
    | none =>
      let r := patchRequests rest (widgetsPatched || p.changed) p.used
      ⟨r.changed, r.err, p.doc :: r.doc, r.used⟩

mutual
/-- The body of the loop of `patchWidgets` for one widget, entered with the
current `widgetsPatched`: exactly one of the `if ... != nil` blocks applies to
a widget of the union, or none of them. -/
def patchWidget : Widget → Bool → Option (Finset (List Char)) → Outcome Widget
  | Widget.group ws, widgetsPatched, used =>
    let p := patchWidgetsFrom ws false used
    match p.err with
    | some e => ⟨false, some e, Widget.group p.doc, p.used⟩
    | none => ⟨widgetsPatched || p.changed, none, Widget.group p.doc, p.used⟩
  | Widget.change reqs, widgetsPatched, used =>
    let p := patchRequests reqs widgetsPatched used
    ⟨p.changed, p.err, Widget.change p.doc, p.used⟩
  | Widget.table reqs, widgetsPatched, used =>
    let p := patchRequests reqs widgetsPatched used
    ⟨p.changed, p.err, Widget.table p.doc, p.used⟩
  | Widget.queryValue reqs, widgetsPatched, used =>
    let p := patchRequests reqs widgetsPatched used
    ⟨p.changed, p.err, Widget.queryValue p.doc, p.used⟩
  | Widget.timeseries reqs, widgetsPatched, used =>
    let p := patchRequests reqs widgetsPatched used
    ⟨p.changed, p.err, Widget.timeseries p.doc, p.used⟩
  | Widget.toplist reqs, widgetsPatched, used =>
    let p := patchRequests reqs widgetsPatched used
    ⟨p.changed, p.err, Widget.toplist p.doc, p.used⟩
  | Widget.treeMap reqs, widgetsPatched, used =>
    let p := patchRequests reqs widgetsPatched used
    ⟨p.changed, p.err, Widget.treeMap p.doc, p.used⟩
  | Widget.other k, widgetsPatched, used => ⟨widgetsPatched, none, Widget.other k, used⟩
/-- The loop `for widgetIndex := range widgets` of `patchWidgets`, started with
the current `widgetsPatched`; an error returns `false` at once. -/
def patchWidgetsFrom : List Widget → Bool → Option (Finset (List Char)) →
    Outcome (List Widget)
  | [], widgetsPatched, used => ⟨widgetsPatched, none, [], used⟩
  | w :: rest, widgetsPatched, used =>
    let p := patchWidget w widgetsPatched used
    match p.err with
    | some e => ⟨false, some e, p.doc :: rest, p.used⟩
    | none =>
      let r := patchWidgetsFrom rest p.changed p.used
      ⟨r.changed, r.err, p.doc :: r.doc, r.used⟩
end

/-- The function `patchWidgets`. -/
def patchWidgets (widgets : List Widget) (usedTemplateVariables : Option (Finset (List Char))) :
    Outcome (List Widget) :=
  patchWidgetsFrom widgets false usedTemplateVariables

/-- The struct `datadogV1.DashboardTemplateVariable`: `Name` and the nullable `Prefix`. -/
structure TemplateVariable where
  name : List Char
  pfx : Option (List Char)
deriving DecidableEq, Repr

/-- The struct `datadogV1.Dashboard`: `Widgets` and `TemplateVariables`. -/
structure Dashboard where
  widgets : List Widget
  templateVariables : List TemplateVariable

/-- The loop `for varIndex := range dashboard.TemplateVariables` of
`PatchDashboard`, started with the current `dashboardPatched`: the final flag
and the variables. -/
def patchTemplateVariables (used : Finset (List Char)) :
    List TemplateVariable → Bool → Bool × List TemplateVariable
  | [], dashboardPatched => (dashboardPatched, [])
  | tv :: rest, dashboardPatched =>
    match tv.pfx with
    | none =>
      let r := patchTemplateVariables used rest dashboardPatched
      (r.1, tv :: r.2)
    | some currentPrefix =>
      if tv.name ∈ used then
        match ksmTagMapping.lookup currentPrefix with
        | some newVal =>
          let r := patchTemplateVariables used rest true
          (r.1, { tv with pfx := some newVal } :: r.2)
        | none =>
          let r := patchTemplateVariables used rest dashboardPatched
          (r.1, tv :: r.2)
      else
        let r := patchTemplateVariables used rest dashboardPatched
        (r.1, tv :: r.2)

/-- The method `Patcher.PatchDashboard`: the two results, the dashboard as it
is on return and the map `usedTemplateVariables` built by the walk. -/
def PatchDashboard (dashboard : Dashboard) : Outcome Dashboard :=
  let w := patchWidgets dashboard.widgets (some ∅)
  match w.err with
  | some e => ⟨false, some e, { dashboard with widgets := w.doc }, w.used⟩
  | none =>
    let r := patchTemplateVariables (w.used.getD ∅) dashboard.templateVariables w.changed
    ⟨r.1, none, { widgets := w.doc, templateVariables := r.2 }, w.used⟩

/-- The struct `datadogV1.Monitor`: `Query` and the optional `Name` and `Message`. -/
structure Monitor where
  query : List Char
  name : Option (List Char)
  message : Option (List Char)
deriving DecidableEq, Repr

/-- The `if monitor.Name != nil` block of `PatchMonitor` (the same code serves
`Message`): the error, and the field as it is afterwards. -/
def patchOptionalText : Option (List Char) → Option MappingError × Option (List Char)
  | none => (none, none)
  | some text =>
    match (patchTemplateString text).err with
    | some e => (some e, some text)
    | none =>
      if (patchTemplateString text).patched ≠ [] then
        (none, some (patchTemplateString text).patched)
      else (none, some text)

/-- The method `Patcher.PatchMonitor`: the two results and the monitor as it is on return. -/
def PatchMonitor (monitor : Monitor) : Bool × Option MappingError × Monitor :=
  match (patchQueryString monitor.query none).1.err with
  | some e => (false, some e, monitor)
  | none =>
    if (patchQueryString monitor.query none).1.patched = [] then (false, none, monitor)
    else
      let m1 := { monitor with query := (patchQueryString monitor.query none).1.patched }
      match (patchOptionalText m1.name).1 with
      | some e => (false, some e, m1)
      | none =>
        let m2 := { m1 with name := (patchOptionalText m1.name).2 }
        match (patchOptionalText m2.message).1 with
        | some e => (false, some e, m2)
        | none => (true, none, { m2 with message := (patchOptionalText m2.message).2 })

/-! ## Vocabulary of the statements -/

/-- The string `dst` is `src` in which some non-overlapping substrings `m` have
been replaced by `m'` with `rule m m'`, and every other character has been
copied unchanged. -/
inductive Rewrite (rule : List Char → List Char → Prop) : List Char → List Char → Prop where
  | done : Rewrite rule [] []
  | copy (c : Char) {s t : List Char} : Rewrite rule s t → Rewrite rule (c :: s) (c :: t)
  | subst {m m' s t : List Char} : rule m m' → Rewrite rule s t →
      Rewrite rule (m ++ s) (m' ++ t)

/-- A legacy tag between a left delimiter `d` and a right delimiter `e`,
replaced by its mapped value between the same two delimiters. -/
def tagRule (m m' : List Char) : Prop :=
  ∃ (d e : Char) (k v : List Char), isLeftDelim d = true ∧ isRightDelim e = true ∧
    (k, v) ∈ ksmTagMapping ∧ m = d :: (k ++ [e]) ∧ m' = d :: (v ++ [e])

/-- A legacy tag followed by `.name`, replaced by its mapped value followed by `.name`. -/
def templateRule (m m' : List Char) : Prop :=
  ∃ (k v : List Char), (k, v) ∈ ksmTagMapping ∧
    m = k ++ ".name".toList ∧ m' = v ++ ".name".toList

/-- A legacy metric name, replaced by its new name. -/
def metricRule (m m' : List Char) : Prop :=
  (m, m') ∈ ksmMetricsPairs

/-- The query a caller holds after `res := patchQueryString(query, ...)`
followed by `if res.patched != "" { query = res.patched }`. -/
def queryAfter (query : List Char) : List Char :=
  if (patchQueryString query none).1.patched ≠ [] then (patchQueryString query none).1.patched
  else query

/-- The text a caller holds after `res := patchTemplateString(text)` followed
by `if res.patched != "" { text = res.patched }`. -/
def textAfter (text : List Char) : List Char :=
  if (patchTemplateString text).patched ≠ [] then (patchTemplateString text).patched
  else text

/-- What `PatchDashboard` does to one template variable `v`, giving `v'`, when
`used` is the used-variable set: the name is kept; the prefix becomes
`ksmTagMapping[prefix]` when the name is in `used` and the prefix is set and is
a key of `ksmTagMapping`, and stays as it was in every other case. -/
def prefixMigrated (used : Finset (List Char)) (v v' : TemplateVariable) : Prop :=
  v'.name = v.name ∧
    ((v.name ∈ used ∧ ∃ (p new : List Char), v.pfx = some p ∧
        ksmTagMapping.lookup p = some new ∧ v'.pfx = some new) ∨
      (¬ (v.name ∈ used ∧ ∃ p : List Char, v.pfx = some p ∧ p ∈ ksmOriginalTags) ∧
        v'.pfx = v.pfx))

/-- The dashboard of scenario 5: a group holding a group holding a timeseries
widget with one request whose query is `q`, and one template variable. -/
def nestedDashboard (q : List Char) (tv : TemplateVariable) : Dashboard :=
  { widgets := [Widget.group [Widget.group [Widget.timeseries [⟨some q, none⟩]]]],
    templateVariables := [tv] }

/-! ## Spec side of the refinement statements -/

/-- Spec side of the metric renaming: one entry of the rename table applied as
an exact literal substring replacement, every occurrence of `old` from left to
right becoming `new` (what `strings.ReplaceAll` does for a non-empty `old`).
The last argument counts the characters that still belong to the occurrence
just replaced. -/
def specReplaceLiteral (old new : List Char) : List Char → Nat → List Char
  | [], _ => []
  | _ :: cs, k + 1 => specReplaceLiteral old new cs k
  | c :: cs, 0 =>
    if old.isPrefixOf (c :: cs) && !old.isEmpty then
      new ++ specReplaceLiteral old new cs (old.length - 1)
    else c :: specReplaceLiteral old new cs 0

/-- Spec side of the metric renaming: the entries of the rename table applied
one after the other, in the order of the table. -/
def specMetricRename (s : List Char) : List Char :=
  ksmMetricsPairs.foldl (fun acc p => specReplaceLiteral p.1 p.2 acc 0) s

/-- The strings `a` and `b` differ at a position that both have. -/
def clash (a b : List Char) : Bool :=
  a.take b.length != b.take a.length

/-- Spec side of the variable collection: `$name` occurs in `query`, where
`name` is a non-empty run of characters of `[a-zA-Z0-9_-]` that no further such
character follows. -/
def IsVariableReference (query name : List Char) : Prop :=
  ∃ (pre post : List Char), query = pre ++ '$' :: (name ++ post) ∧ name ≠ [] ∧
    (∀ c ∈ name, isVarChar c = true) ∧ (post.head?.map isVarChar).getD false = false

/-- Whether `patchQueryString` reports a change for `query` (`res.patched != ""`). -/
def queryReportsChange (query : List Char) : Bool :=
  !(patchQueryString query none).1.patched.isEmpty

/-- One entry of `Queries` after `patchRequestWidget`: the query of a metric
query definition is the query after `patchQueryString`; any other entry is as
it was. -/
def rewriteQueryDefinition :
    FormulaAndFunctionQueryDefinition → FormulaAndFunctionQueryDefinition
  | FormulaAndFunctionQueryDefinition.metric n query =>
    FormulaAndFunctionQueryDefinition.metric n (queryAfter query)
  | FormulaAndFunctionQueryDefinition.other p => FormulaAndFunctionQueryDefinition.other p

/-- Whether the call of `patchQueryString` delegated for one entry of `Queries`
reports a change; no call is delegated for an entry that is not a metric query. -/
def definitionReportsChange : FormulaAndFunctionQueryDefinition → Bool
  | FormulaAndFunctionQueryDefinition.metric _ query => queryReportsChange query
  | FormulaAndFunctionQueryDefinition.other _ => false

/-- A request after `patchRequestWidget`. -/
def rewriteRequest (req : Request) : Request :=
  (patchRequestWidget req none).doc

/-- The changed flag `patchRequestWidget` returns for a request. -/
def requestChanged (req : Request) : Bool :=
  (patchRequestWidget req none).changed

mutual
/-- A widget in which every request, at any depth, is the request after
`patchRequestWidget`; the kinds and the order of the widgets are kept. -/
def rewriteWidget : Widget → Widget
  | Widget.group ws => Widget.group (rewriteWidgets ws)
  | Widget.change reqs => Widget.change (reqs.map rewriteRequest)
  | Widget.table reqs => Widget.table (reqs.map rewriteRequest)
  | Widget.queryValue reqs => Widget.queryValue (reqs.map rewriteRequest)
  | Widget.timeseries reqs => Widget.timeseries (reqs.map rewriteRequest)
  | Widget.toplist reqs => Widget.toplist (reqs.map rewriteRequest)
  | Widget.treeMap reqs => Widget.treeMap (reqs.map rewriteRequest)
  | Widget.other k => Widget.other k
/-- The widgets of a list, each rewritten by `rewriteWidget`. -/
def rewriteWidgets : List Widget → List Widget
  | [] => []
  | w :: ws => rewriteWidget w :: rewriteWidgets ws
end

mutual
/-- The requests of a widget, at any depth, in the order of the walk. -/
def widgetRequests : Widget → List Request
  | Widget.group ws => widgetsRequests ws
  | Widget.change reqs => reqs
  | Widget.table reqs => reqs
  | Widget.queryValue reqs => reqs
  | Widget.timeseries reqs => reqs
  | Widget.toplist reqs => reqs
  | Widget.treeMap reqs => reqs
  | Widget.other _ => []
/-- The requests of a list of widgets, at any depth, in the order of the walk. -/
def widgetsRequests : List Widget → List Request
  | [] => []
  | w :: ws => widgetRequests w ++ widgetsRequests ws
end

mutual
/-- Two widgets have the same shape: the same kind, and then the same number
of requests, or children of the same shapes in the same order. -/
def sameShape : Widget → Widget → Bool
  | Widget.group ws, Widget.group ws' => sameShapes ws ws'
  | Widget.change reqs, Widget.change reqs' => reqs.length == reqs'.length
  | Widget.table reqs, Widget.table reqs' => reqs.length == reqs'.length
  | Widget.queryValue reqs, Widget.queryValue reqs' => reqs.length == reqs'.length
  | Widget.timeseries reqs, Widget.timeseries reqs' => reqs.length == reqs'.length
  | Widget.toplist reqs, Widget.toplist reqs' => reqs.length == reqs'.length
  | Widget.treeMap reqs, Widget.treeMap reqs' => reqs.length == reqs'.length
  | Widget.other k, Widget.other k' => k == k'
  | _, _ => false
/-- Two lists of widgets have the same length and, position by position, the same shapes. -/
def sameShapes : List Widget → List Widget → Bool
  | [], [] => true
  | w :: ws, w' :: ws' => sameShape w w' && sameShapes ws ws'
  | _, _ => false
end

/-! ## The queries of a dashboard -/

/-- The query `patchRequestWidget` hands to `patchQueryString` for one entry of
`Queries`: the `Query` of a metric query definition, none for another entry. -/
def metricQueryOf : FormulaAndFunctionQueryDefinition → Option (List Char)
  | FormulaAndFunctionQueryDefinition.metric _ query => some query
  | FormulaAndFunctionQueryDefinition.other _ => none

/-- The queries of a request, in the order `patchRequestWidget` reads them: the
inline query `Q` when set, then the metric queries of `Queries`. -/
def requestQueries (req : Request) : List (List Char) :=
  req.q.toList ++ (req.queries.getD []).filterMap metricQueryOf

/-- The queries of a list of requests, in order. -/
def requestsQueries : List Request → List (List Char)
  | [] => []
  | req :: rest => requestQueries req ++ requestsQueries rest

/-- The widget queries of a dashboard: the queries of the requests of its
Change, Table, QueryValue, Timeseries, Toplist and TreeMap widgets, at any
depth below Group widgets, as they are before the patch. -/
def dashboardQueries (d : Dashboard) : List (List Char) :=
  requestsQueries (widgetsRequests d.widgets)

/-- The variable `name` is referenced by a KSM query of the list: some query
contains `kubernetes_state.` and holds the reference `$name`. -/
def referencedIn (queries : List (List Char)) (name : List Char) : Prop :=
  ∃ q ∈ queries, "kubernetes_state.".toList <:+: q ∧ IsVariableReference q name

/-- The map `r` is allocated and holds exactly the elements of `S` and the
variables referenced by a KSM query of the list. -/
def usedAfter (queries : List (List Char)) (S : Finset (List Char))
    (r : Option (Finset (List Char))) : Prop :=
  ∃ S' : Finset (List Char), r = some S' ∧
    ∀ name : List Char, name ∈ S' ↔ name ∈ S ∨ referencedIn queries name

/-- A dashboard whose nested query references `$namespace`, with the template
variables of scenarios 5 and 6: `namespace` and `unused`, both with the prefix
`namespace`. -/
def referencingDashboard : Dashboard :=
  { widgets :=
      [Widget.group [Widget.group [Widget.timeseries
        [⟨some "avg:kubernetes_state.pod.status\x7b$namespace\x7d".toList, none⟩]]]],
    templateVariables :=
      [⟨"namespace".toList, some "namespace".toList⟩,
        ⟨"unused".toList, some "namespace".toList⟩] }

/-! ## The patterns under another order of the alternatives -/

/-- The tag substitution of `patchQueryString` when the alternation of
`ksmTagReplaceRegexp` lists the keys in the order `tags`. -/
def replaceTagsWith (tags : List (List Char)) (query : List Char) :
    Option MappingError × List Char :=
  replaceAllStringFunc (tagRegexpMatchAt tags) queryCallback query none

/-- The function `patchQueryString` when the alternation of
`ksmTagReplaceRegexp` lists the keys in the order `tags`. -/
def patchQueryStringWith (tags : List (List Char)) (query : List Char)
    (usedVariables : Option (Finset (List Char))) :
    patchResult × Option (Finset (List Char)) :=
  if !stringsContains query "kubernetes_state.".toList then
    (⟨none, []⟩, usedVariables)
  else
    let used := usedVariables.map (addVariables (findAllString variableReferenceRegexp query))
    match replaceTagsWith tags query with
    | (some e, _) => (⟨some e, []⟩, used)
    | (none, patchedQuery) =>
      if ksmMetricsReplacer patchedQuery ≠ query then
        (⟨none, ksmMetricsReplacer patchedQuery⟩, used)
      else (⟨none, []⟩, used)

/-- The function `patchTemplateString` when the alternation of
`templateVarRegexp` lists the keys in the order `tags`. -/
def patchTemplateStringWith (tags : List (List Char)) (templateString : List Char) :
    patchResult :=
  match replaceAllStringFunc (templateRegexpMatchAt tags) templateCallback templateString
    (false, none) with
  | ((patched, err), patchedTemplate) =>
    if patched then ⟨err, patchedTemplate⟩ else ⟨err, []⟩

/-! ## Scanning lemmas -/

theorem scan_skip (f : List Char → Option Nat) :
    ∀ (s : List Char) (k : Nat), scan f s k = scan f (s.drop k) 0
  | [], k => by cases k <;> simp [scan]
  | c :: cs, 0 => by simp
  | c :: cs, k + 1 => by simp [scan, scan_skip f cs k]

theorem scan_cons_hit (f : List Char → Option Nat) (c : Char) (cs : List Char) (n : Nat)
    (h : f (c :: cs) = some (n + 1)) :
    scan f (c :: cs) 0 = Piece.hit ((c :: cs).take (n + 1)) :: scan f ((c :: cs).drop (n + 1)) 0 := by
  rw [scan, h]
  simp only [List.drop_succ_cons]
  rw [scan_skip f cs n]

theorem scan_cons_lit (f : List Char → Option Nat) (c : Char) (cs : List Char)
    (h : ∀ n, f (c :: cs) ≠ some (n + 1)) :
    scan f (c :: cs) 0 = Piece.lit c :: scan f cs 0 := by
  rw [scan]
  split
  · next n hn => exact absurd hn (h n)
  · rfl

/-- The step function folded by `replaceAllStringFunc`. -/
theorem foldl_step_acc {σ : Type} (repl : σ → List Char → σ × List Char) (ps : List Piece) :
    ∀ (st : σ) (acc : List Char),
      ps.foldl
        (fun acc p =>
          match p with
          | Piece.lit c => (acc.1, acc.2 ++ [c])
          | Piece.hit m => ((repl acc.1 m).1, acc.2 ++ (repl acc.1 m).2))
        (st, acc) =
      ((ps.foldl
        (fun acc p =>
          match p with
          | Piece.lit c => (acc.1, acc.2 ++ [c])
          | Piece.hit m => ((repl acc.1 m).1, acc.2 ++ (repl acc.1 m).2))
        (st, [])).1,
       acc ++ (ps.foldl
        (fun acc p =>
          match p with
          | Piece.lit c => (acc.1, acc.2 ++ [c])
          | Piece.hit m => ((repl acc.1 m).1, acc.2 ++ (repl acc.1 m).2))
        (st, [])).2) := by
  induction ps with
  | nil => intro st acc; simp
  | cons p ps ih =>
    intro st acc
    cases p with
    | lit c =>
      simp only [List.foldl_cons, List.nil_append]
      rw [ih st (acc ++ [c]), ih st [c]]
      simp
    | hit m =>
      simp only [List.foldl_cons, List.nil_append]
      rw [ih (repl st m).1 (acc ++ (repl st m).2), ih (repl st m).1 (repl st m).2]
      simp

theorem replaceAllStringFunc_nil {σ : Type} (f : List Char → Option Nat)
    (repl : σ → List Char → σ × List Char) (st : σ) :
    replaceAllStringFunc f repl [] st = (st, []) := by
  simp [replaceAllStringFunc, scan]

theorem replaceAllStringFunc_lit {σ : Type} (f : List Char → Option Nat)
    (repl : σ → List Char → σ × List Char) (st : σ) (c : Char) (cs : List Char)
    (h : ∀ n, f (c :: cs) ≠ some (n + 1)) :
    replaceAllStringFunc f repl (c :: cs) st =
      ((replaceAllStringFunc f repl cs st).1, c :: (replaceAllStringFunc f repl cs st).2) := by
  unfold replaceAllStringFunc
  rw [scan_cons_lit f c cs h, List.foldl_cons]
  simp only [List.nil_append]
  rw [foldl_step_acc]
  simp

theorem replaceAllStringFunc_hit {σ : Type} (f : List Char → Option Nat)
    (repl : σ → List Char → σ × List Char) (st : σ) (c : Char) (cs : List Char) (n : Nat)
    (h : f (c :: cs) = some (n + 1)) :
    replaceAllStringFunc f repl (c :: cs) st =
      ((replaceAllStringFunc f repl ((c :: cs).drop (n + 1))
          (repl st ((c :: cs).take (n + 1))).1).1,
        (repl st ((c :: cs).take (n + 1))).2 ++
          (replaceAllStringFunc f repl ((c :: cs).drop (n + 1))
            (repl st ((c :: cs).take (n + 1))).1).2) := by
  unfold replaceAllStringFunc
  rw [scan_cons_hit f c cs n h, List.foldl_cons]
  simp only [List.nil_append]
  rw [foldl_step_acc]

/-- Induction along the scan: a property of strings that holds for the empty
string, passes from `cs` to `c :: cs`, and passes from the rest after a match
to the whole string, holds for every string. -/
theorem scan_induction (f : List Char → Option Nat) (P : List Char → Prop)
    (hnil : P [])
    (hlit : ∀ c cs, (∀ n, f (c :: cs) ≠ some (n + 1)) → P cs → P (c :: cs))
    (hhit : ∀ c cs n, f (c :: cs) = some (n + 1) → P ((c :: cs).drop (n + 1)) → P (c :: cs)) :
    ∀ s, P s := by
  have key : ∀ (k : Nat) (s : List Char), s.length ≤ k → P s := by
    intro k
    induction k with
    | zero =>
      intro s hs
      have : s = [] := List.eq_nil_of_length_eq_zero (Nat.le_zero.mp hs)
      subst this
      exact hnil
    | succ k ih =>
      intro s hs
      cases s with
      | nil => exact hnil
      | cons c cs =>
        have hcs : cs.length ≤ k := by simpa using hs
        by_cases hm : ∃ n, f (c :: cs) = some (n + 1)
        · obtain ⟨n, hn⟩ := hm
          apply hhit c cs n hn
          apply ih
          simp only [List.drop_succ_cons, List.length_drop]
          omega
        · apply hlit c cs
          · intro n hn; exact hm ⟨n, hn⟩
          · exact ih cs hcs
  intro s
  exact key s.length s (Nat.le_refl _)


/-! ## The patterns at one position -/

theorem tagRegexpMatchAt_some {tags : List (List Char)} {s : List Char} {k : Nat}
    (h : tagRegexpMatchAt tags s = some k) :
    ∃ (d e : Char) (t rest : List Char), s = d :: (t ++ e :: rest) ∧ isLeftDelim d = true ∧
      isRightDelim e = true ∧ t ∈ tags ∧ k = t.length + 2 := by
  cases s with
  | nil => simp [tagRegexpMatchAt] at h
  | cons d rest =>
    simp only [tagRegexpMatchAt] at h
    split at h
    · next hd =>
      obtain ⟨t, ht, hc⟩ := List.exists_of_findSome?_eq_some h
      split at hc
      · next hcond =>
        simp only [Bool.and_eq_true, List.isPrefixOf_iff_prefix] at hcond
        obtain ⟨⟨r, hr⟩, he⟩ := hcond
        subst hr
        simp only [List.drop_left] at he
        cases r with
        | nil => simp at he
        | cons e r' =>
          simp only [List.head?_cons, Option.map_some', Option.getD_some] at he
          exact ⟨d, e, t, r', rfl, hd, he, ht, by simpa using hc.symm⟩
      · simp at hc
    · simp at h

theorem templateRegexpMatchAt_some {tags : List (List Char)} {s : List Char} {k : Nat}
    (h : templateRegexpMatchAt tags s = some k) :
    ∃ (t rest : List Char), s = t ++ ".name".toList ++ rest ∧ t ∈ tags ∧ k = t.length + 5 := by
  obtain ⟨t, ht, hc⟩ := List.exists_of_findSome?_eq_some h
  split at hc
  · next hcond =>
    simp only [List.isPrefixOf_iff_prefix] at hcond
    obtain ⟨r, hr⟩ := hcond
    exact ⟨t, r, hr.symm, ht, by simpa using hc.symm⟩
  · simp at hc

theorem templateRegexpMatchAt_eq_none {tags : List (List Char)} {s : List Char} :
    templateRegexpMatchAt tags s = none ↔ ∀ t ∈ tags, ¬ (t ++ ".name".toList) <+: s := by
  simp only [templateRegexpMatchAt, List.findSome?_eq_none_iff]
  constructor
  · intro h t ht hp
    have := h t ht
    rw [if_pos (List.isPrefixOf_iff_prefix.mpr hp)] at this
    simp at this
  · intro h t ht
    rw [if_neg]
    intro hp
    exact h t ht (List.isPrefixOf_iff_prefix.mp hp)

theorem replacerMatchAt_some {pairs : List (List Char × List Char)} {s : List Char} {k : Nat}
    (h : replacerMatchAt pairs s = some k) :
    ∃ (p : List Char × List Char) (rest : List Char), p ∈ pairs ∧ s = p.1 ++ rest ∧
      k = p.1.length := by
  obtain ⟨p, hp, hc⟩ := List.exists_of_findSome?_eq_some h
  split at hc
  · next hcond =>
    obtain ⟨r, hr⟩ := List.isPrefixOf_iff_prefix.mp hcond
    exact ⟨p, r, hp, hr.symm, by simpa using hc.symm⟩
  · simp at hc

theorem lookup_mem {l : List (List Char × List Char)} {k v : List Char}
    (h : l.lookup k = some v) : (k, v) ∈ l := by
  induction l with
  | nil => simp at h
  | cons p l ih =>
    obtain ⟨a, b⟩ := p
    rw [List.lookup_cons] at h
    split at h
    · next hk =>
      have hka : k = a := by simpa using hk
      have hb : b = v := by simpa using h
      subst hka; subst hb
      exact List.mem_cons_self _ _
    · exact List.mem_cons_of_mem _ (ih h)

theorem ksmTagMapping_lookup_key :
    ∀ t ∈ ksmOriginalTags, (ksmTagMapping.lookup t).isSome = true := by
  decide

/-! ## The callbacks on a match -/

theorem take_tag_match (d e : Char) (t rest : List Char) :
    (d :: (t ++ e :: rest)).take (t.length + 2) = d :: (t ++ [e]) := by
  have : t ++ e :: rest = (t ++ [e]) ++ rest := by simp
  rw [show t.length + 2 = (t.length + 1) + 1 from rfl, List.take_succ_cons, this]
  rw [List.take_left' (by simp)]

theorem drop_tag_match (d e : Char) (t rest : List Char) :
    (d :: (t ++ e :: rest)).drop (t.length + 2) = rest := by
  have : t ++ e :: rest = (t ++ [e]) ++ rest := by simp
  rw [show t.length + 2 = (t.length + 1) + 1 from rfl, List.drop_succ_cons, this]
  rw [List.drop_left' (by simp)]

theorem queryCallback_match (err : Option MappingError) (d e : Char) (t : List Char) :
    queryCallback err (d :: (t ++ [e])) =
      match ksmTagMapping.lookup t with
      | none => (some ⟨t⟩, d :: (t ++ [e]))
      | some newTag => (err, d :: (newTag ++ [e])) := by
  have h1 : ((d :: (t ++ [e])).drop 1).take ((d :: (t ++ [e])).length - 2) = t := by
    simp
  have h2 : (d :: (t ++ [e])).take 1 = [d] := by simp
  have h3 : (d :: (t ++ [e])).drop ((d :: (t ++ [e])).length - 1) = [e] := by
    simp
  unfold queryCallback
  rw [h1, h2, h3]
  cases ksmTagMapping.lookup t <;> simp

theorem templateCallback_match (st : Bool × Option MappingError) (t : List Char) :
    templateCallback st (t ++ ".name".toList) =
      match ksmTagMapping.lookup t with
      | none => ((st.1, some ⟨t⟩), t ++ ".name".toList)
      | some newTag => ((true, st.2), newTag ++ ".name".toList) := by
  have h1 : (t ++ ".name".toList).take ((t ++ ".name".toList).length - 5) = t := by
    simp
  unfold templateCallback
  rw [h1]


/-! ## What a whole replacement pass does -/

theorem replaceAllStringFunc_rewrite {σ : Type} (rule : List Char → List Char → Prop)
    (f : List Char → Option Nat) (repl : σ → List Char → σ × List Char) (inv : σ → Prop)
    (h : ∀ (s : List Char) (n : Nat) (st : σ), inv st → f s = some (n + 1) →
      inv (repl st (s.take (n + 1))).1 ∧ rule (s.take (n + 1)) (repl st (s.take (n + 1))).2) :
    ∀ (s : List Char) (st : σ), inv st →
      inv (replaceAllStringFunc f repl s st).1 ∧
        Rewrite rule s (replaceAllStringFunc f repl s st).2 := by
  intro s
  refine scan_induction f
    (fun s => ∀ st, inv st → inv (replaceAllStringFunc f repl s st).1 ∧
      Rewrite rule s (replaceAllStringFunc f repl s st).2) ?_ ?_ ?_ s
  · intro st hst
    rw [replaceAllStringFunc_nil]
    exact ⟨hst, Rewrite.done⟩
  · intro c cs hno ih st hst
    rw [replaceAllStringFunc_lit f repl st c cs hno]
    exact ⟨(ih st hst).1, Rewrite.copy c (ih st hst).2⟩
  · intro c cs n hn ih st hst
    rw [replaceAllStringFunc_hit f repl st c cs n hn]
    obtain ⟨h1, h2⟩ := h (c :: cs) n st hst hn
    refine ⟨(ih _ h1).1, ?_⟩
    have hsplit : (c :: cs) = (c :: cs).take (n + 1) ++ (c :: cs).drop (n + 1) :=
      (List.take_append_drop _ _).symm
    have := Rewrite.subst h2 (ih _ h1).2
    rw [← hsplit] at this
    exact this

theorem Rewrite.nil_of_nil {rule : List Char → List Char → Prop}
    (hr : ∀ m m', rule m m' → m' ≠ []) {s t : List Char} (h : Rewrite rule s t) (ht : t = []) :
    s = [] := by
  cases h with
  | done => rfl
  | copy c h' => simp at ht
  | subst hm h' =>
    rename_i m m' s' t'
    have := hr m m' hm
    simp at ht
    exact absurd ht.1 this

theorem Rewrite.refl (rule : List Char → List Char → Prop) :
    ∀ s : List Char, Rewrite rule s s
  | [] => Rewrite.done
  | c :: cs => Rewrite.copy c (Rewrite.refl rule cs)

theorem queryCallback_spec (s : List Char) (n : Nat) (st : Option MappingError)
    (hst : st = none) (h : ksmTagReplaceRegexp s = some (n + 1)) :
    (queryCallback st (s.take (n + 1))).1 = none ∧
      tagRule (s.take (n + 1)) (queryCallback st (s.take (n + 1))).2 := by
  obtain ⟨d, e, t, rest, hs, hd, he, ht, hk⟩ := tagRegexpMatchAt_some h
  subst hs
  rw [hk, take_tag_match, queryCallback_match]
  have hl := ksmTagMapping_lookup_key t ht
  cases hlk : ksmTagMapping.lookup t with
  | none => rw [hlk] at hl; simp at hl
  | some v =>
    simp only
    exact ⟨hst, d, e, t, v, hd, he, lookup_mem hlk, rfl, rfl⟩

theorem replaceTags_spec (q : List Char) :
    (replaceTags q).1 = none ∧ Rewrite tagRule q (replaceTags q).2 :=
  replaceAllStringFunc_rewrite tagRule ksmTagReplaceRegexp queryCallback (fun st => st = none)
    queryCallback_spec q none rfl

theorem templateCallback_spec (s : List Char) (n : Nat) (st : Bool × Option MappingError)
    (hst : st.2 = none) (h : templateVarRegexp s = some (n + 1)) :
    (templateCallback st (s.take (n + 1))).1.2 = none ∧
      templateRule (s.take (n + 1)) (templateCallback st (s.take (n + 1))).2 := by
  obtain ⟨t, rest, hs, ht, hk⟩ := templateRegexpMatchAt_some h
  subst hs
  have htake : (t ++ ".name".toList ++ rest).take (n + 1) = t ++ ".name".toList := by
    rw [hk]
    exact List.take_left' (by simp)
  rw [htake, templateCallback_match]
  have hl := ksmTagMapping_lookup_key t ht
  cases hlk : ksmTagMapping.lookup t with
  | none => rw [hlk] at hl; simp at hl
  | some v =>
    simp only
    exact ⟨hst, t, v, lookup_mem hlk, rfl, rfl⟩

theorem templateStage_spec (text : List Char) (st : Bool × Option MappingError)
    (hst : st.2 = none) :
    (replaceAllStringFunc templateVarRegexp templateCallback text st).1.2 = none ∧
      Rewrite templateRule text
        (replaceAllStringFunc templateVarRegexp templateCallback text st).2 :=
  replaceAllStringFunc_rewrite templateRule templateVarRegexp templateCallback
    (fun st => st.2 = none) templateCallback_spec text st hst

theorem ksmMetricsPairs_lookup :
    ∀ p ∈ ksmMetricsPairs, ksmMetricsPairs.lookup p.1 = some p.2 := by
  decide

theorem ksmMetricsReplacer_rewrite (s : List Char) :
    Rewrite metricRule s (ksmMetricsReplacer s) := by
  refine (replaceAllStringFunc_rewrite metricRule (replacerMatchAt ksmMetricsPairs)
    (fun (u : Unit) m => (u, (ksmMetricsPairs.lookup m).getD m)) (fun _ => True) ?_ s ()
    trivial).2
  intro s n st _ h
  obtain ⟨p, rest, hp, hs, hk⟩ := replacerMatchAt_some h
  refine ⟨trivial, ?_⟩
  subst hs
  have htake : (p.1 ++ rest).take (n + 1) = p.1 := by
    rw [hk]; exact List.take_left' rfl
  simp only [htake, ksmMetricsPairs_lookup p hp, Option.getD_some]
  exact hp

theorem tagRule_ne_nil (m m' : List Char) (h : tagRule m m') : m' ≠ [] := by
  obtain ⟨d, e, k, v, _, _, _, _, hm'⟩ := h
  rw [hm']; simp

theorem metricRule_ne_nil (m m' : List Char) (h : metricRule m m') : m' ≠ [] := by
  have : ∀ p ∈ ksmMetricsPairs, p.2 ≠ [] := by decide
  exact this (m, m') h

theorem templateRule_ne_nil (m m' : List Char) (h : templateRule m m') : m' ≠ [] := by
  obtain ⟨k, v, _, _, hm'⟩ := h
  rw [hm']; simp

/-! ## `patchQueryString` and `patchTemplateString` in closed form -/

theorem patchQueryString_fast (q : List Char) (used : Option (Finset (List Char)))
    (h : stringsContains q "kubernetes_state.".toList = false) :
    patchQueryString q used = (⟨none, []⟩, used) := by
  simp only [patchQueryString, h, Bool.not_false, if_true]

theorem patchQueryString_slow (q : List Char) (used : Option (Finset (List Char)))
    (h : stringsContains q "kubernetes_state.".toList = true) :
    patchQueryString q used =
      (if ksmMetricsReplacer (replaceTags q).2 ≠ q then
          ⟨none, ksmMetricsReplacer (replaceTags q).2⟩
        else ⟨none, []⟩,
       used.map (addVariables (findAllString variableReferenceRegexp q))) := by
  have h1 := (replaceTags_spec q).1
  have h2 : replaceTags q = (none, (replaceTags q).2) := by
    rw [← h1]
  simp only [patchQueryString, h, Bool.not_true, Bool.false_eq_true, if_false]
  rw [h2]
  simp only
  split <;> rfl

theorem patchQueryString_err (q : List Char) (used : Option (Finset (List Char))) :
    (patchQueryString q used).1.err = none := by
  cases h : stringsContains q "kubernetes_state.".toList with
  | false => rw [patchQueryString_fast q used h]
  | true =>
    rw [patchQueryString_slow q used h]
    simp only
    split <;> rfl

theorem patchTemplateString_err (text : List Char) : (patchTemplateString text).err = none := by
  have h := (templateStage_spec text (false, none) rfl).1
  unfold patchTemplateString
  split
  next patched err patchedTemplate heq =>
    rw [heq] at h
    simp only at h
    split <;> exact h


/-! ## Tag substitution followed by metric renaming -/

theorem stringsContains_iff (s sub : List Char) :
    stringsContains s sub = true ↔ sub <:+: s := by
  induction s with
  | nil =>
    simp only [stringsContains, List.isPrefixOf_iff_prefix]
    constructor
    · intro h; exact h.isInfix
    · intro h
      have := List.eq_nil_of_infix_nil h
      subst this
      exact List.prefix_refl _
  | cons c cs ih =>
    simp only [stringsContains, Bool.or_eq_true, List.isPrefixOf_iff_prefix, ih]
    rw [List.infix_cons_iff]

theorem replaceTags_nil : replaceTags [] = (none, []) := by
  simp [replaceTags, replaceAllStringFunc_nil]

theorem replaceTags_lit (c : Char) (cs : List Char)
    (h : ∀ n, ksmTagReplaceRegexp (c :: cs) ≠ some (n + 1)) :
    (replaceTags (c :: cs)).2 = c :: (replaceTags cs).2 := by
  simp only [replaceTags]
  rw [replaceAllStringFunc_lit _ _ _ c cs h]

theorem replaceTags_hit (s : List Char) (n : Nat) (h : ksmTagReplaceRegexp s = some (n + 1)) :
    ∃ (d e : Char) (k v rest : List Char), isLeftDelim d = true ∧ isRightDelim e = true ∧
      (k, v) ∈ ksmTagMapping ∧ s = d :: (k ++ [e]) ++ rest ∧
      (replaceTags s).2 = d :: (v ++ [e]) ++ (replaceTags rest).2 := by
  obtain ⟨d, e, t, rest, hs, hd, he, ht, hk⟩ := tagRegexpMatchAt_some h
  have hl := ksmTagMapping_lookup_key t ht
  cases hlk : ksmTagMapping.lookup t with
  | none => rw [hlk] at hl; simp at hl
  | some v =>
    refine ⟨d, e, t, v, rest, hd, he, lookup_mem hlk, by simp [hs], ?_⟩
    subst hs
    simp only [replaceTags]
    rw [replaceAllStringFunc_hit _ _ _ d _ n h, hk, take_tag_match, drop_tag_match,
      queryCallback_match, hlk]

theorem ksmMetricsReplacer_nil : ksmMetricsReplacer [] = [] := by
  simp [ksmMetricsReplacer, replacerReplace, replaceAllStringFunc_nil]

theorem ksmMetricsReplacer_lit (c : Char) (cs : List Char)
    (h : ∀ n, replacerMatchAt ksmMetricsPairs (c :: cs) ≠ some (n + 1)) :
    ksmMetricsReplacer (c :: cs) = c :: ksmMetricsReplacer cs := by
  simp only [ksmMetricsReplacer, replacerReplace]
  rw [replaceAllStringFunc_lit _ _ _ c cs h]

theorem ksmMetricsReplacer_hit (s : List Char) (n : Nat)
    (h : replacerMatchAt ksmMetricsPairs s = some (n + 1)) :
    ∃ (p : List Char × List Char) (rest : List Char), p ∈ ksmMetricsPairs ∧ s = p.1 ++ rest ∧
      ksmMetricsReplacer s = p.2 ++ ksmMetricsReplacer rest := by
  obtain ⟨p, rest, hp, hs, hk⟩ := replacerMatchAt_some h
  refine ⟨p, rest, hp, hs, ?_⟩
  cases s with
  | nil =>
    have : p.1 ≠ [] := by
      have : ∀ p ∈ ksmMetricsPairs, p.1 ≠ [] := by decide
      exact this p hp
    cases hp1 : p.1 with
    | nil => exact absurd hp1 this
    | cons a b => rw [hp1] at hs; simp at hs
  | cons c cs =>
    simp only [ksmMetricsReplacer, replacerReplace]
    rw [replaceAllStringFunc_hit _ _ _ c cs n h]
    have htake : (c :: cs).take (n + 1) = p.1 := by
      rw [hs, hk]; exact List.take_left' rfl
    have hdrop : (c :: cs).drop (n + 1) = rest := by
      rw [hs, hk]; exact List.drop_left' rfl
    simp only [htake, hdrop, ksmMetricsPairs_lookup p hp, Option.getD_some]

theorem replacerMatchAt_none_of_short (u : List Char) (e : Char) (X : List Char)
    (hu : ∀ p ∈ ksmMetricsPairs, u.length < p.1.length)
    (he : ∀ p ∈ ksmMetricsPairs, e ∉ p.1) (n : Nat) :
    replacerMatchAt ksmMetricsPairs (u ++ e :: X) ≠ some (n + 1) := by
  intro h
  obtain ⟨p, rest, hp, hs, _⟩ := replacerMatchAt_some h
  have h1 : (u ++ [e]) <+: (p.1 ++ rest) := by
    rw [← hs]
    exact ⟨X, by simp⟩
  have h2 : p.1 <+: (p.1 ++ rest) := List.prefix_append _ _
  have h3 : (u ++ [e]) <+: p.1 :=
    List.prefix_of_prefix_length_le h1 h2 (by simpa using hu p hp)
  exact he p hp (h3.subset (by simp))

theorem ksmMetricsReplacer_pass (u : List Char) (e : Char) (X : List Char)
    (hu : ∀ p ∈ ksmMetricsPairs, u.length < p.1.length)
    (he : ∀ p ∈ ksmMetricsPairs, e ∉ p.1) :
    ksmMetricsReplacer (u ++ e :: X) = u ++ e :: ksmMetricsReplacer X := by
  induction u with
  | nil =>
    simp only [List.nil_append]
    exact ksmMetricsReplacer_lit e X (replacerMatchAt_none_of_short [] e X hu he)
  | cons a u ih =>
    have hu' : ∀ p ∈ ksmMetricsPairs, u.length < p.1.length := by
      intro p hp
      have := hu p hp
      simp only [List.length_cons] at this
      omega
    simp only [List.cons_append]
    rw [ksmMetricsReplacer_lit a (u ++ e :: X)
      (replacerMatchAt_none_of_short (a :: u) e X hu he), ih hu']

theorem replaceTags_of_prefix (old : List Char) (hold : ∀ c ∈ old, isLeftDelim c = false) :
    ∀ q : List Char, old <+: (replaceTags q).2 →
      old <+: q ∧ (replaceTags q).2 = old ++ (replaceTags (q.drop old.length)).2 := by
  induction old with
  | nil => intro q _; simp
  | cons o os ih =>
    intro q hq
    cases q with
    | nil => rw [replaceTags_nil] at hq; simp at hq
    | cons c cs =>
      by_cases hm : ∃ n, ksmTagReplaceRegexp (c :: cs) = some (n + 1)
      · obtain ⟨n, hn⟩ := hm
        obtain ⟨d, e, k, v, rest, hd, _, _, _, hout⟩ := replaceTags_hit _ n hn
        rw [hout] at hq
        obtain ⟨r, hr⟩ := hq
        simp only [List.cons_append, List.cons.injEq] at hr
        have := hold o (List.mem_cons_self _ _)
        rw [hr.1, hd] at this
        simp at this
      · have hno : ∀ n, ksmTagReplaceRegexp (c :: cs) ≠ some (n + 1) :=
          fun n hn => hm ⟨n, hn⟩
        rw [replaceTags_lit c cs hno] at hq ⊢
        obtain ⟨r, hr⟩ := hq
        simp only [List.cons_append, List.cons.injEq] at hr
        obtain ⟨hoc, hr'⟩ := hr
        have hos : ∀ c ∈ os, isLeftDelim c = false :=
          fun x hx => hold x (List.mem_cons_of_mem _ hx)
        obtain ⟨h1, h2⟩ := ih hos cs ⟨r, hr'⟩
        subst hoc
        refine ⟨(List.cons_prefix_cons).mpr ⟨rfl, h1⟩, ?_⟩
        simp only [List.length_cons, List.drop_succ_cons, List.cons_append, List.cons.injEq,
          true_and]
        exact h2

theorem ksmMetricsPairs_no_delim :
    ∀ p ∈ ksmMetricsPairs, ∀ c ∈ p.1, isLeftDelim c = false ∧ isRightDelim c = false := by
  decide

theorem ksmTagMapping_value_short :
    ∀ kv ∈ ksmTagMapping, ∀ p ∈ ksmMetricsPairs, kv.2.length + 1 < p.1.length := by
  decide

theorem rewrite_tags_then_metrics (q : List Char) :
    Rewrite (fun m m' => tagRule m m' ∨ metricRule m m') q
      (ksmMetricsReplacer (replaceTags q).2) := by
  have key : ∀ (k : Nat) (q : List Char), q.length ≤ k →
      Rewrite (fun m m' => tagRule m m' ∨ metricRule m m') q
        (ksmMetricsReplacer (replaceTags q).2) := by
    intro k
    induction k with
    | zero =>
      intro q hq
      have : q = [] := List.eq_nil_of_length_eq_zero (Nat.le_zero.mp hq)
      subst this
      rw [replaceTags_nil, ksmMetricsReplacer_nil]
      exact Rewrite.done
    | succ k ih =>
      intro q hq
      cases q with
      | nil =>
        rw [replaceTags_nil, ksmMetricsReplacer_nil]
        exact Rewrite.done
      | cons c cs =>
        have hcs : cs.length ≤ k := by simpa using hq
        by_cases hm : ∃ n, ksmTagReplaceRegexp (c :: cs) = some (n + 1)
        · obtain ⟨n, hn⟩ := hm
          obtain ⟨d, e, t, v, rest, hd, he, hkv, hs, hout⟩ := replaceTags_hit _ n hn
          rw [hout, hs]
          have hpass : ksmMetricsReplacer (d :: (v ++ [e]) ++ (replaceTags rest).2) =
              d :: (v ++ [e]) ++ ksmMetricsReplacer (replaceTags rest).2 := by
            have := ksmMetricsReplacer_pass (d :: v) e (replaceTags rest).2
              (fun p hp => by
                have := ksmTagMapping_value_short (t, v) hkv p hp
                simpa using this)
              (fun p hp hmem => by
                have := (ksmMetricsPairs_no_delim p hp e hmem).2
                rw [he] at this
                simp at this)
            simpa using this
          rw [hpass]
          apply Rewrite.subst (Or.inl ⟨d, e, t, v, hd, he, hkv, rfl, rfl⟩)
          apply ih
          have : (c :: cs).length = (d :: (t ++ [e]) ++ rest).length := by rw [hs]
          simp only [List.length_cons, List.length_append, List.cons_append] at this
          omega
        · have hno : ∀ n, ksmTagReplaceRegexp (c :: cs) ≠ some (n + 1) :=
            fun n hn => hm ⟨n, hn⟩
          by_cases hr : ∃ n, replacerMatchAt ksmMetricsPairs (replaceTags (c :: cs)).2 = some (n + 1)
          · obtain ⟨n, hn⟩ := hr
            obtain ⟨p, rest, hp, hs, hout⟩ := ksmMetricsReplacer_hit _ n hn
            have hold : ∀ x ∈ p.1, isLeftDelim x = false :=
              fun x hx => (ksmMetricsPairs_no_delim p hp x hx).1
            obtain ⟨h1, h2⟩ := replaceTags_of_prefix p.1 hold (c :: cs) ⟨rest, hs.symm⟩
            have hrest : rest = (replaceTags ((c :: cs).drop p.1.length)).2 := by
              rw [hs] at h2
              exact List.append_cancel_left h2
            rw [hout, hrest]
            obtain ⟨r, hr⟩ := h1
            have hdrop : (c :: cs).drop p.1.length = r := by
              rw [← hr]; exact List.drop_left' rfl
            rw [hdrop, ← hr]
            apply Rewrite.subst (Or.inr hp)
            apply ih
            have hne : p.1 ≠ [] := by
              have : ∀ p ∈ ksmMetricsPairs, p.1 ≠ [] := by decide
              exact this p hp
            have hlen : (p.1 ++ r).length = (c :: cs).length := by rw [hr]
            have hpos : 0 < p.1.length := List.length_pos.mpr hne
            simp only [List.length_append, List.length_cons] at hlen
            omega
          · have hnr : ∀ n, replacerMatchAt ksmMetricsPairs (replaceTags (c :: cs)).2 ≠
                some (n + 1) := fun n hn => hr ⟨n, hn⟩
            rw [replaceTags_lit c cs hno] at hnr ⊢
            rw [ksmMetricsReplacer_lit c _ hnr]
            exact Rewrite.copy c (ih cs hcs)
  exact key q.length q (Nat.le_refl _)


/-! ## The walk raises no error and keeps the map allocated -/

theorem patchQueryString_used_isSome (q : List Char) (used : Option (Finset (List Char))) :
    (patchQueryString q used).2.isSome = used.isSome := by
  cases h : stringsContains q "kubernetes_state.".toList with
  | false => rw [patchQueryString_fast q used h]
  | true => rw [patchQueryString_slow q used h]; cases used <;> rfl

theorem patchQueries_ok :
    ∀ (qs : List FormulaAndFunctionQueryDefinition) (b : Bool)
      (used : Option (Finset (List Char))),
      (patchQueries qs b used).err = none ∧ (patchQueries qs b used).used.isSome = used.isSome
  | [], b, used => by simp [patchQueries]
  | FormulaAndFunctionQueryDefinition.other p :: rest, b, used => by
    simp only [patchQueries]
    exact patchQueries_ok rest b used
  | FormulaAndFunctionQueryDefinition.metric n query :: rest, b, used => by
    simp only [patchQueries, patchQueryString_err]
    split
    · have := patchQueries_ok rest true (patchQueryString query used).2
      rw [patchQueryString_used_isSome] at this
      exact this
    · have := patchQueries_ok rest b (patchQueryString query used).2
      rw [patchQueryString_used_isSome] at this
      exact this

theorem patchRequestQueries_ok (req : Request) (b : Bool) (used : Option (Finset (List Char))) :
    (patchRequestQueries req b used).err = none ∧
      (patchRequestQueries req b used).used.isSome = used.isSome := by
  unfold patchRequestQueries
  split
  · simp
  · next queries _ => exact patchQueries_ok queries b used

theorem patchRequestWidget_ok (req : Request) (used : Option (Finset (List Char))) :
    (patchRequestWidget req used).err = none ∧
      (patchRequestWidget req used).used.isSome = used.isSome := by
  unfold patchRequestWidget
  split
  · exact patchRequestQueries_ok req false used
  · next q _ =>
    simp only [patchQueryString_err]
    split
    · have := patchRequestQueries_ok { req with q := some (patchQueryString q used).1.patched }
        true (patchQueryString q used).2
      rw [patchQueryString_used_isSome] at this
      exact this
    · have := patchRequestQueries_ok req false (patchQueryString q used).2
      rw [patchQueryString_used_isSome] at this
      exact this

theorem patchRequests_ok :
    ∀ (reqs : List Request) (b : Bool) (used : Option (Finset (List Char))),
      (patchRequests reqs b used).err = none ∧
        (patchRequests reqs b used).used.isSome = used.isSome
  | [], b, used => by simp [patchRequests]
  | req :: rest, b, used => by
    simp only [patchRequests, (patchRequestWidget_ok req used).1]
    have := patchRequests_ok rest (b || (patchRequestWidget req used).changed)
      (patchRequestWidget req used).used
    rw [(patchRequestWidget_ok req used).2] at this
    exact this

mutual
theorem patchWidget_ok :
    ∀ (w : Widget) (b : Bool) (used : Option (Finset (List Char))),
      (patchWidget w b used).err = none ∧ (patchWidget w b used).used.isSome = used.isSome
  | Widget.group ws, b, used => by
    have := patchWidgetsFrom_ok ws false used
    simp only [patchWidget, this.1]
    exact ⟨trivial, this.2⟩
  | Widget.change reqs, b, used => by
    simp only [patchWidget]; exact patchRequests_ok reqs b used
  | Widget.table reqs, b, used => by
    simp only [patchWidget]; exact patchRequests_ok reqs b used
  | Widget.queryValue reqs, b, used => by
    simp only [patchWidget]; exact patchRequests_ok reqs b used
  | Widget.timeseries reqs, b, used => by
    simp only [patchWidget]; exact patchRequests_ok reqs b used
  | Widget.toplist reqs, b, used => by
    simp only [patchWidget]; exact patchRequests_ok reqs b used
  | Widget.treeMap reqs, b, used => by
    simp only [patchWidget]; exact patchRequests_ok reqs b used
  | Widget.other k, b, used => by simp [patchWidget]
theorem patchWidgetsFrom_ok :
    ∀ (ws : List Widget) (b : Bool) (used : Option (Finset (List Char))),
      (patchWidgetsFrom ws b used).err = none ∧
        (patchWidgetsFrom ws b used).used.isSome = used.isSome
  | [], b, used => by simp [patchWidgetsFrom]
  | w :: rest, b, used => by
    have hw := patchWidget_ok w b used
    have hr := patchWidgetsFrom_ok rest (patchWidget w b used).changed (patchWidget w b used).used
    simp only [patchWidgetsFrom, hw.1]
    rw [hw.2] at hr
    exact hr
end

theorem PatchDashboard_err (d : Dashboard) : (PatchDashboard d).err = none := by
  unfold PatchDashboard
  simp only [patchWidgets, (patchWidgetsFrom_ok d.widgets false (some ∅)).1]

theorem PatchDashboard_used (d : Dashboard) :
    ∃ U : Finset (List Char), (PatchDashboard d).used = some U := by
  have h := (patchWidgetsFrom_ok d.widgets false (some ∅)).2
  have hu : (PatchDashboard d).used = (patchWidgetsFrom d.widgets false (some ∅)).used := by
    unfold PatchDashboard
    simp only [patchWidgets, (patchWidgetsFrom_ok d.widgets false (some ∅)).1]
  rw [hu]
  cases hx : (patchWidgetsFrom d.widgets false (some ∅)).used with
  | none => rw [hx] at h; simp at h
  | some U => exact ⟨U, rfl⟩

theorem PatchDashboard_templateVariables (d : Dashboard) :
    (PatchDashboard d).doc.templateVariables =
      (patchTemplateVariables ((PatchDashboard d).used.getD ∅) d.templateVariables
        (patchWidgets d.widgets (some ∅)).changed).2 := by
  unfold PatchDashboard
  simp only [patchWidgets, (patchWidgetsFrom_ok d.widgets false (some ∅)).1]

theorem patchOptionalText_eq (text : Option (List Char)) :
    patchOptionalText text = (none, text.map textAfter) := by
  cases text with
  | none => rfl
  | some t =>
    simp only [patchOptionalText, patchTemplateString_err, Option.map_some', textAfter]
    split <;> rfl

theorem PatchMonitor_eq (m : Monitor) :
    PatchMonitor m =
      if (patchQueryString m.query none).1.patched = [] then (false, none, m)
      else (true, none,
        { query := (patchQueryString m.query none).1.patched,
          name := m.name.map textAfter, message := m.message.map textAfter }) := by
  unfold PatchMonitor
  simp only [patchQueryString_err, patchOptionalText_eq]

theorem patched_ne_query (q : List Char) (used : Option (Finset (List Char)))
    (h : (patchQueryString q used).1.patched ≠ []) :
    (patchQueryString q used).1.patched = ksmMetricsReplacer (replaceTags q).2 ∧
      (patchQueryString q used).1.patched ≠ q := by
  cases hc : stringsContains q "kubernetes_state.".toList with
  | false => rw [patchQueryString_fast q used hc] at h; simp at h
  | true =>
    rw [patchQueryString_slow q used hc] at h ⊢
    simp only at h ⊢
    split
    · next hne => exact ⟨rfl, hne⟩
    · next heq => rw [if_neg heq] at h; simp at h

theorem ksmMetricsReplacer_replaceTags_ne_nil (q : List Char) (hq : q ≠ []) :
    ksmMetricsReplacer (replaceTags q).2 ≠ [] := by
  intro h
  have h1 := Rewrite.nil_of_nil metricRule_ne_nil (ksmMetricsReplacer_rewrite (replaceTags q).2) h
  exact hq (Rewrite.nil_of_nil tagRule_ne_nil (replaceTags_spec q).2 h1)


/-! ## Further lemmas on the scan -/

theorem scan_hit_mem (f : List Char → Option Nat) :
    ∀ (s : List Char) (m : List Char), Piece.hit m ∈ scan f s 0 →
      ∃ (s' : List Char) (n : Nat), s' <:+ s ∧ f s' = some (n + 1) ∧ m = s'.take (n + 1) := by
  intro s
  refine scan_induction f
    (fun s => ∀ m, Piece.hit m ∈ scan f s 0 →
      ∃ (s' : List Char) (n : Nat), s' <:+ s ∧ f s' = some (n + 1) ∧ m = s'.take (n + 1))
    ?_ ?_ ?_ s
  · intro m hm; simp [scan] at hm
  · intro c cs hno ih m hm
    rw [scan_cons_lit f c cs hno] at hm
    simp only [List.mem_cons] at hm
    rcases hm with hm | hm
    · cases hm
    · obtain ⟨s', n, hs, hf, he⟩ := ih m hm
      exact ⟨s', n, hs.trans (List.suffix_cons c cs), hf, he⟩
  · intro c cs n hn ih m hm
    rw [scan_cons_hit f c cs n hn] at hm
    simp only [List.mem_cons, Piece.hit.injEq] at hm
    rcases hm with hm | hm
    · exact ⟨c :: cs, n, List.suffix_refl _, hn, hm⟩
    · obtain ⟨s', k, hs, hf, he⟩ := ih m hm
      exact ⟨s', k, hs.trans (List.drop_suffix _ _), hf, he⟩

theorem findAllString_mem (f : List Char → Option Nat) (s m : List Char)
    (h : m ∈ findAllString f s) :
    ∃ (s' : List Char) (n : Nat), s' <:+ s ∧ f s' = some (n + 1) ∧ m = s'.take (n + 1) := by
  unfold findAllString at h
  rw [List.mem_filterMap] at h
  obtain ⟨p, hp, hpm⟩ := h
  cases p with
  | lit c => simp at hpm
  | hit m' =>
    simp only [Option.some.injEq] at hpm
    subst hpm
    exact scan_hit_mem f s m' hp

theorem template_flag (text : List Char) :
    ∀ st : Bool × Option MappingError,
      ((replaceAllStringFunc templateVarRegexp templateCallback text st).1.1 = true ↔
        st.1 = true ∨ ∃ t ∈ ksmOriginalTags, (t ++ ".name".toList) <:+: text) := by
  refine scan_induction templateVarRegexp
    (fun text => ∀ st : Bool × Option MappingError,
      ((replaceAllStringFunc templateVarRegexp templateCallback text st).1.1 = true ↔
        st.1 = true ∨ ∃ t ∈ ksmOriginalTags, (t ++ ".name".toList) <:+: text)) ?_ ?_ ?_ text
  · intro st
    rw [replaceAllStringFunc_nil]
    constructor
    · intro h; exact Or.inl h
    · rintro (h | ⟨t, _, ht⟩)
      · exact h
      · have := List.eq_nil_of_infix_nil ht
        simp at this
  · intro c cs hno ih st
    rw [replaceAllStringFunc_lit _ _ _ c cs hno]
    simp only
    rw [ih st]
    have hnone : templateVarRegexp (c :: cs) = none := by
      cases hx : templateVarRegexp (c :: cs) with
      | none => rfl
      | some k =>
        obtain ⟨t, rest, _, _, hk⟩ := templateRegexpMatchAt_some hx
        exact absurd (hk ▸ hx) (hno (t.length + 4))
    have hpre := templateRegexpMatchAt_eq_none.mp hnone
    constructor
    · rintro (h | ⟨t, ht, hi⟩)
      · exact Or.inl h
      · exact Or.inr ⟨t, ht, List.infix_cons hi⟩
    · rintro (h | ⟨t, ht, hi⟩)
      · exact Or.inl h
      · rcases List.infix_cons_iff.mp hi with hp | hi'
        · exact absurd hp (hpre t ht)
        · exact Or.inr ⟨t, ht, hi'⟩
  · intro c cs n hn ih st
    rw [replaceAllStringFunc_hit _ _ _ c cs n hn]
    simp only
    rw [ih]
    obtain ⟨t, rest, hs, ht, hk⟩ := templateRegexpMatchAt_some hn
    have htake : (c :: cs).take (n + 1) = t ++ ".name".toList := by
      rw [hs, hk]; exact List.take_left' (by simp)
    have hl := ksmTagMapping_lookup_key t ht
    have hflag : (templateCallback st ((c :: cs).take (n + 1))).1.1 = true := by
      rw [htake, templateCallback_match]
      cases hlk : ksmTagMapping.lookup t with
      | none => rw [hlk] at hl; simp at hl
      | some v => rfl
    constructor
    · intro _
      refine Or.inr ⟨t, ht, ?_⟩
      rw [hs]
      exact (List.prefix_append _ _).isInfix
    · intro _
      exact Or.inl hflag

theorem patchTemplateString_patched (text : List Char) :
    (patchTemplateString text).patched ≠ [] ↔
      ∃ t ∈ ksmOriginalTags, (t ++ ".name".toList) <:+: text := by
  have hflag := template_flag text (false, none)
  have hrw := (templateStage_spec text (false, none) rfl).2
  unfold patchTemplateString
  split
  next patched err patchedTemplate heq =>
    rw [heq] at hflag hrw
    simp only [Bool.false_eq_true, false_or] at hflag hrw
    cases patched with
    | false =>
      simp only [Bool.false_eq_true, if_false, ne_eq, not_true_eq_false, false_iff]
      intro h
      exact absurd (hflag.mpr h) (by simp)
    | true =>
      simp only [if_true, ne_eq]
      constructor
      · intro _; exact hflag.mp rfl
      · intro h hnil
        have := Rewrite.nil_of_nil templateRule_ne_nil hrw hnil
        subst this
        obtain ⟨t, _, ht⟩ := h
        have := List.eq_nil_of_infix_nil ht
        simp at this

theorem patchTemplateString_eq (text : List Char) :
    patchTemplateString text =
      if (replaceAllStringFunc templateVarRegexp templateCallback text (false, none)).1.1 = true
      then ⟨(replaceAllStringFunc templateVarRegexp templateCallback text (false, none)).1.2,
        (replaceAllStringFunc templateVarRegexp templateCallback text (false, none)).2⟩
      else ⟨(replaceAllStringFunc templateVarRegexp templateCallback text (false, none)).1.2,
        []⟩ := by
  unfold patchTemplateString
  rfl

theorem textAfter_rewrite (text : List Char) : Rewrite templateRule text (textAfter text) := by
  have hrw := (templateStage_spec text (false, none) rfl).2
  unfold textAfter
  split
  · next h =>
    rw [patchTemplateString_eq] at h ⊢
    split
    · exact hrw
    · next hf => rw [if_neg hf] at h; simp at h
  · exact Rewrite.refl _ _

theorem queryAfter_eq (q : List Char) :
    queryAfter q =
      if stringsContains q "kubernetes_state.".toList = true then
        ksmMetricsReplacer (replaceTags q).2
      else q := by
  unfold queryAfter
  cases hc : stringsContains q "kubernetes_state.".toList with
  | false =>
    rw [patchQueryString_fast q none hc]
    simp
  | true =>
    rw [patchQueryString_slow q none hc]
    simp only [if_true]
    by_cases hne : ksmMetricsReplacer (replaceTags q).2 = q
    · simp [hne]
    · have hq : q ≠ [] := by
        intro h; subst h
        rw [replaceTags_nil, ksmMetricsReplacer_nil] at hne
        exact hne rfl
      simp [hne, ksmMetricsReplacer_replaceTags_ne_nil q hq]

theorem patchTemplateVariables_forall₂ (used : Finset (List Char)) :
    ∀ (tvs : List TemplateVariable) (b : Bool),
      List.Forall₂ (prefixMigrated used) tvs (patchTemplateVariables used tvs b).2
  | [], b => by simp [patchTemplateVariables]
  | tv :: rest, b => by
    unfold patchTemplateVariables
    split
    · next hp =>
      refine List.Forall₂.cons ⟨rfl, Or.inr ⟨?_, rfl⟩⟩ (patchTemplateVariables_forall₂ used rest b)
      rintro ⟨_, p, hp', _⟩
      rw [hp] at hp'; cases hp'
    · next cur hp =>
      split
      · next hmem =>
        split
        · next newVal hl =>
          exact List.Forall₂.cons ⟨rfl, Or.inl ⟨hmem, cur, newVal, hp, hl, rfl⟩⟩
            (patchTemplateVariables_forall₂ used rest true)
        · next hl =>
          refine List.Forall₂.cons ⟨rfl, Or.inr ⟨?_, rfl⟩⟩
            (patchTemplateVariables_forall₂ used rest b)
          rintro ⟨_, p, hp', hkey⟩
          rw [hp] at hp'; cases hp'
          have := ksmTagMapping_lookup_key cur hkey
          rw [hl] at this
          simp at this
      · next hmem =>
        refine List.Forall₂.cons ⟨rfl, Or.inr ⟨?_, rfl⟩⟩
          (patchTemplateVariables_forall₂ used rest b)
        rintro ⟨h, _⟩
        exact hmem h


/-! ## A query behind a prefix without `$`, delimiter or dot -/

theorem findAllString_variable_nil (s : List Char) (h : ∀ c ∈ s, c ≠ '$') :
    findAllString variableReferenceRegexp s = [] := by
  unfold findAllString
  induction s with
  | nil => simp [scan]
  | cons c cs ih =>
    have hc : c ≠ '$' := h c (List.mem_cons_self _ _)
    have hno : ∀ n, variableReferenceRegexp (c :: cs) ≠ some (n + 1) := by
      intro n
      simp [variableReferenceRegexp, hc]
    rw [scan_cons_lit _ c cs hno]
    simp only [List.filterMap_cons]
    exact ih (fun x hx => h x (List.mem_cons_of_mem _ hx))

theorem replaceTags_append_left (p s : List Char) (h : ∀ c ∈ p, isLeftDelim c = false) :
    (replaceTags (p ++ s)).2 = p ++ (replaceTags s).2 := by
  induction p with
  | nil => rfl
  | cons c cs ih =>
    have hc : isLeftDelim c = false := h c (List.mem_cons_self _ _)
    have hno : ∀ n, ksmTagReplaceRegexp (c :: (cs ++ s)) ≠ some (n + 1) := by
      intro n
      simp [ksmTagReplaceRegexp, tagRegexpMatchAt, hc]
    simp only [List.cons_append]
    rw [replaceTags_lit c (cs ++ s) hno, ih (fun x hx => h x (List.mem_cons_of_mem _ hx))]

theorem ksmMetricsPairs_marker :
    ∀ p ∈ ksmMetricsPairs, "kubernetes_state.".toList <+: p.1 := by
  decide

theorem ksmMetricsReplacer_append_left (p Y : List Char) (h : ∀ c ∈ p, c ≠ '.')
    (hY : ∀ j, j < 17 → 0 < j → ¬ ("kubernetes_state.".toList.drop j) <+: Y) :
    ksmMetricsReplacer (p ++ Y) = p ++ ksmMetricsReplacer Y := by
  induction p with
  | nil => rfl
  | cons c cs ih =>
    have hno : ∀ n, replacerMatchAt ksmMetricsPairs (c :: (cs ++ Y)) ≠ some (n + 1) := by
      intro n hn
      obtain ⟨pr, rest, hpr, hs, _⟩ := replacerMatchAt_some hn
      have hm : "kubernetes_state.".toList <+: (c :: cs) ++ Y := by
        have h1 := ksmMetricsPairs_marker pr hpr
        have h2 : pr.1 <+: (c :: cs) ++ Y := ⟨rest, by simpa using hs.symm⟩
        exact h1.trans h2
      by_cases hlen : 17 ≤ (c :: cs).length
      · have h3 : "kubernetes_state.".toList <+: (c :: cs) :=
          List.prefix_of_prefix_length_le hm (List.prefix_append _ _) (by simpa using hlen)
        exact h '.' (h3.subset (by decide)) rfl
      · have hlt : (c :: cs).length < 17 := Nat.lt_of_not_le hlen
        have h3 : (c :: cs) <+: "kubernetes_state.".toList :=
          List.prefix_of_prefix_length_le (List.prefix_append _ _) hm
            (by
              have : "kubernetes_state.".toList.length = 17 := by decide
              omega)
        have h4 : "kubernetes_state.".toList =
            (c :: cs) ++ "kubernetes_state.".toList.drop (c :: cs).length := by
          have := List.prefix_iff_eq_take.mp h3
          conv_lhs => rw [← List.take_append_drop (c :: cs).length "kubernetes_state.".toList]
          rw [← this]
        rw [h4] at hm
        have h5 := (List.prefix_append_right_inj (c :: cs)).mp hm
        exact hY (c :: cs).length hlt (by simp) h5
    simp only [List.cons_append]
    rw [ksmMetricsReplacer_lit c (cs ++ Y) hno, ih (fun x hx => h x (List.mem_cons_of_mem _ hx))]

theorem patchQueryString_scenario5 (p : List Char) (used : Finset (List Char))
    (hp : ∀ c ∈ p, c ≠ '$' ∧ isLeftDelim c = false ∧ c ≠ '.') :
    patchQueryString (p ++ "kubernetes_state.pod.status\x7bnamespace\x7d".toList) (some used) =
      (⟨none, p ++ "kubernetes_state.pod.status\x7bkube_namespace\x7d".toList⟩, some used) := by
  have hc : stringsContains (p ++ "kubernetes_state.pod.status\x7bnamespace\x7d".toList)
      "kubernetes_state.".toList = true := by
    rw [stringsContains_iff]
    have h0 : "kubernetes_state.".toList <:+:
        "kubernetes_state.pod.status\x7bnamespace\x7d".toList := by decide
    exact h0.trans (List.suffix_append p _).isInfix
  have hv : findAllString variableReferenceRegexp
      (p ++ "kubernetes_state.pod.status\x7bnamespace\x7d".toList) = [] := by
    apply findAllString_variable_nil
    intro c hc
    rcases List.mem_append.mp hc with h | h
    · exact (hp c h).1
    · have hR : ∀ x ∈ "kubernetes_state.pod.status\x7bnamespace\x7d".toList, x ≠ '$' := by
        decide
      exact hR c h
  have ht : (replaceTags (p ++ "kubernetes_state.pod.status\x7bnamespace\x7d".toList)).2 =
      p ++ "kubernetes_state.pod.status\x7bkube_namespace\x7d".toList := by
    rw [replaceTags_append_left p _ (fun c hc => (hp c hc).2.1)]
    congr 1
  have hm : ksmMetricsReplacer (p ++ "kubernetes_state.pod.status\x7bkube_namespace\x7d".toList) =
      p ++ "kubernetes_state.pod.status\x7bkube_namespace\x7d".toList := by
    rw [ksmMetricsReplacer_append_left p _ (fun c hc => (hp c hc).2.2) (by decide)]
    congr 1
  rw [patchQueryString_slow _ _ hc, ht, hm, hv]
  have hne : p ++ "kubernetes_state.pod.status\x7bkube_namespace\x7d".toList ≠
      p ++ "kubernetes_state.pod.status\x7bnamespace\x7d".toList := by
    intro h
    exact absurd (List.append_cancel_left h) (by decide)
  simp [hne, addVariables]

/-! ## The generic replacer -/

theorem replacerReplace_nil (pairs : List (List Char × List Char)) :
    replacerReplace pairs [] = [] := by
  simp [replacerReplace, replaceAllStringFunc_nil]

theorem replacerReplace_lit (pairs : List (List Char × List Char)) (c : Char) (cs : List Char)
    (h : ∀ n, replacerMatchAt pairs (c :: cs) ≠ some (n + 1)) :
    replacerReplace pairs (c :: cs) = c :: replacerReplace pairs cs := by
  simp only [replacerReplace]
  rw [replaceAllStringFunc_lit _ _ _ c cs h]

theorem lookup_isSome_of_mem {l : List (List Char × List Char)} {k v : List Char}
    (h : (k, v) ∈ l) : ∃ v', l.lookup k = some v' := by
  induction l with
  | nil => simp at h
  | cons p l ih =>
    obtain ⟨a, b⟩ := p
    rw [List.lookup_cons]
    by_cases hk : k = a
    · subst hk; simp
    · have hne : (k == a) = false := by simpa using hk
      rw [hne]
      simp only [List.mem_cons, Prod.mk.injEq] at h
      rcases h with h | h
      · exact absurd h.1 hk
      · exact ih h

theorem replacerReplace_hit (pairs : List (List Char × List Char)) (s : List Char) (n : Nat)
    (h : replacerMatchAt pairs s = some (n + 1)) :
    ∃ (old new rest : List Char), (old, new) ∈ pairs ∧ s = old ++ rest ∧
      old.length = n + 1 ∧ replacerReplace pairs s = new ++ replacerReplace pairs rest := by
  obtain ⟨p, rest, hp, hs, hk⟩ := replacerMatchAt_some h
  obtain ⟨v, hv⟩ := lookup_isSome_of_mem (show (p.1, p.2) ∈ pairs from hp)
  refine ⟨p.1, v, rest, lookup_mem hv, hs, hk.symm, ?_⟩
  cases s with
  | nil =>
    have hlen : (p.1 ++ rest).length = 0 := by rw [← hs]; rfl
    simp only [List.length_append] at hlen
    omega
  | cons c cs =>
    simp only [replacerReplace]
    rw [replaceAllStringFunc_hit _ _ _ c cs n h]
    have htake : (c :: cs).take (n + 1) = p.1 := by
      rw [hs, hk]; exact List.take_left' rfl
    have hdrop : (c :: cs).drop (n + 1) = rest := by
      rw [hs, hk]; exact List.drop_left' rfl
    simp only [htake, hdrop, hv, Option.getD_some]

theorem replacerMatchAt_hits (pairs : List (List Char × List Char))
    (hne : ∀ p ∈ pairs, p.1 ≠ []) (old new s : List Char) (hp : (old, new) ∈ pairs)
    (h : old <+: s) : ∃ n, replacerMatchAt pairs s = some (n + 1) := by
  cases hx : replacerMatchAt pairs s with
  | none =>
    simp only [replacerMatchAt, List.findSome?_eq_none_iff] at hx
    have := hx (old, new) hp
    rw [if_pos (List.isPrefixOf_iff_prefix.mpr h)] at this
    simp at this
  | some k =>
    obtain ⟨p, rest, hp', _, hk⟩ := replacerMatchAt_some hx
    have hpos : 0 < p.1.length := List.length_pos.mpr (hne p hp')
    exact ⟨k - 1, by congr 1; omega⟩

/-! ## Strings that differ at a common position -/

theorem clash_excludes :
    ∀ (a b X : List Char), clash a b = true → ¬ a <+: b ++ X
  | [], b, X, h => by simp [clash] at h
  | x :: a, [], X, h => by simp [clash] at h
  | x :: a, y :: b, X, h => by
    intro hp
    simp only [List.cons_append] at hp
    obtain ⟨hxy, hab⟩ := List.cons_prefix_cons.mp hp
    subst hxy
    have h' : clash a b = true := by
      simpa [clash] using h
    exact clash_excludes a b X h' hab

theorem replacerReplace_pass (pairs : List (List Char × List Char)) (u Y : List Char)
    (h : ∀ j, j < u.length → ∀ p ∈ pairs, clash p.1 (u.drop j) = true) :
    replacerReplace pairs (u ++ Y) = u ++ replacerReplace pairs Y := by
  induction u with
  | nil => rfl
  | cons a u ih =>
    have hno : ∀ n, replacerMatchAt pairs (a :: (u ++ Y)) ≠ some (n + 1) := by
      intro n hn
      obtain ⟨p, rest, hp, hs, _⟩ := replacerMatchAt_some hn
      have h1 : p.1 <+: (a :: u) ++ Y := ⟨rest, by simpa using hs.symm⟩
      exact clash_excludes _ _ _ (h 0 (by simp) p hp) h1
    have ih' := ih (fun j hj p hp => by
      have := h (j + 1) (by simpa using hj) p hp
      simpa using this)
    simp only [List.cons_append]
    rw [replacerReplace_lit pairs a (u ++ Y) hno, ih']

theorem replacerReplace_reflects (pairs : List (List Char × List Char)) (P : List Char)
    (h : ∀ j, j < P.length → ∀ p ∈ pairs, clash (P.drop j) p.2 = true) :
    ∀ s : List Char, P <+: replacerReplace pairs s →
      P <+: s ∧ replacerReplace pairs s = P ++ replacerReplace pairs (s.drop P.length) := by
  induction P with
  | nil => intro s _; simp
  | cons o os ih =>
    intro s hs
    have ih' := ih (fun j hj p hp => by
      have := h (j + 1) (by simpa using hj) p hp
      simpa using this)
    cases s with
    | nil => rw [replacerReplace_nil] at hs; simp at hs
    | cons c cs =>
      by_cases hm : ∃ n, replacerMatchAt pairs (c :: cs) = some (n + 1)
      · obtain ⟨n, hn⟩ := hm
        obtain ⟨old, new, rest, hp, _, _, hout⟩ := replacerReplace_hit pairs _ n hn
        rw [hout] at hs
        exact absurd hs (clash_excludes _ _ _ (h 0 (by simp) (old, new) hp))
      · have hno : ∀ n, replacerMatchAt pairs (c :: cs) ≠ some (n + 1) :=
          fun n hn => hm ⟨n, hn⟩
        rw [replacerReplace_lit pairs c cs hno] at hs ⊢
        obtain ⟨hoc, hos⟩ := List.cons_prefix_cons.mp hs
        subst hoc
        obtain ⟨h1, h2⟩ := ih' cs hos
        refine ⟨List.cons_prefix_cons.mpr ⟨rfl, h1⟩, ?_⟩
        simp only [List.length_cons, List.drop_succ_cons, List.cons_append, List.cons.injEq,
          true_and]
        exact h2

theorem infix_append_cases (old : List Char) :
    ∀ (u Y : List Char), old <:+: u ++ Y →
      (∃ j, j < u.length ∧ old <+: u.drop j ++ Y) ∨ old <:+: Y
  | [], Y, h => Or.inr (by simpa using h)
  | a :: u, Y, h => by
    simp only [List.cons_append] at h
    rcases List.infix_cons_iff.mp h with hp | hi
    · exact Or.inl ⟨0, by simp, by simpa using hp⟩
    · rcases infix_append_cases old u Y hi with ⟨j, hj, hp⟩ | hY
      · exact Or.inl ⟨j + 1, by simpa using hj, by simpa using hp⟩
      · exact Or.inr hY

theorem replacerReplace_no_old (pairs : List (List Char × List Char))
    (hne : ∀ p ∈ pairs, p.1 ≠ [])
    (h1 : ∀ q ∈ pairs, ∀ j, j < q.1.length → ∀ p ∈ pairs, clash (q.1.drop j) p.2 = true)
    (h2 : ∀ q ∈ pairs, ∀ p ∈ pairs, ∀ j, j < p.2.length → clash q.1 (p.2.drop j) = true)
    (s : List Char) : ∀ q ∈ pairs, ¬ q.1 <:+: replacerReplace pairs s := by
  refine scan_induction (replacerMatchAt pairs)
    (fun s => ∀ q ∈ pairs, ¬ q.1 <:+: replacerReplace pairs s) ?_ ?_ ?_ s
  · intro q hq hi
    rw [replacerReplace_nil] at hi
    exact hne q hq (List.eq_nil_of_infix_nil hi)
  · intro c cs hno ih q hq hi
    rw [replacerReplace_lit pairs c cs hno] at hi
    rcases List.infix_cons_iff.mp hi with hp | hi'
    · rw [← replacerReplace_lit pairs c cs hno] at hp
      obtain ⟨hpre, _⟩ := replacerReplace_reflects pairs q.1 (h1 q hq) (c :: cs) hp
      obtain ⟨n, hn⟩ := replacerMatchAt_hits pairs hne q.1 q.2 (c :: cs) hq hpre
      exact hno n hn
    · exact ih q hq hi'
  · intro c cs n hn ih q hq hi
    obtain ⟨old, new, rest, hp, hs, hlen, hout⟩ := replacerReplace_hit pairs _ n hn
    have hrest : (c :: cs).drop (n + 1) = rest := by
      rw [hs, ← hlen]; exact List.drop_left' rfl
    rw [hout] at hi
    rcases infix_append_cases q.1 new _ hi with ⟨j, hj, hpj⟩ | hY
    · exact clash_excludes _ _ _ (h2 q hq (old, new) hp j hj) hpj
    · rw [← hrest] at hY
      exact ih q hq hY

/-! ## One pass of the replacer against one replacement after the other -/

theorem specReplaceLiteral_skip (old new : List Char) :
    ∀ (s : List Char) (k : Nat),
      specReplaceLiteral old new s k = specReplaceLiteral old new (s.drop k) 0
  | [], k => by cases k <;> simp [specReplaceLiteral]
  | c :: cs, 0 => by simp
  | c :: cs, k + 1 => by simp [specReplaceLiteral, specReplaceLiteral_skip old new cs k]

theorem replacerReplace_single_hit (p : List Char × List Char) (hne : p.1 ≠ [])
    (rest : List Char) :
    replacerReplace [p] (p.1 ++ rest) = p.2 ++ replacerReplace [p] rest := by
  obtain ⟨n, hn⟩ := replacerMatchAt_hits [p] (by simpa using hne) p.1 p.2 (p.1 ++ rest)
    (by simp) (List.prefix_append _ _)
  obtain ⟨old, new, rest', hp, hs, _, hout⟩ := replacerReplace_hit [p] _ n hn
  simp only [List.mem_singleton] at hp
  have h1 : old = p.1 := by rw [← hp]
  have h2 : new = p.2 := by rw [← hp]
  subst h1; subst h2
  rw [hout, List.append_cancel_left hs]

theorem replacerMatchAt_single_none (p : List Char × List Char) (s : List Char)
    (h : ¬ p.1 <+: s) (n : Nat) : replacerMatchAt [p] s ≠ some (n + 1) := by
  intro hn
  obtain ⟨p', rest, hp, hs, _⟩ := replacerMatchAt_some hn
  simp only [List.mem_singleton] at hp
  subst hp
  exact h ⟨rest, hs.symm⟩

theorem specReplaceLiteral_eq (old new : List Char) (hne : old ≠ []) (s : List Char) :
    specReplaceLiteral old new s 0 = replacerReplace [(old, new)] s := by
  refine scan_induction (replacerMatchAt [(old, new)])
    (fun s => specReplaceLiteral old new s 0 = replacerReplace [(old, new)] s) ?_ ?_ ?_ s
  · show specReplaceLiteral old new [] 0 = replacerReplace [(old, new)] []
    rw [replacerReplace_nil]; rfl
  · intro c cs hno ih
    have hnp : ¬ old <+: c :: cs := by
      intro hp
      obtain ⟨n, hn⟩ := replacerMatchAt_hits [(old, new)] (by simpa using hne) old new
        (c :: cs) (by simp) hp
      exact hno n hn
    rw [replacerReplace_lit _ c cs hno, ← ih]
    have : old.isPrefixOf (c :: cs) = false := by
      cases hx : old.isPrefixOf (c :: cs) with
      | false => rfl
      | true => exact absurd (List.isPrefixOf_iff_prefix.mp hx) hnp
    simp [specReplaceLiteral, this]
  · intro c cs n hn ih
    obtain ⟨old', new', rest, hp, hs, hlen, hout⟩ := replacerReplace_hit _ _ n hn
    simp only [List.mem_singleton, Prod.mk.injEq] at hp
    obtain ⟨ho, hnw⟩ := hp
    subst ho; subst hnw
    have hrest : (c :: cs).drop (n + 1) = rest := by
      rw [hs, ← hlen]; exact List.drop_left' rfl
    rw [hout, ← hrest, ← ih]
    have hpre : old'.isPrefixOf (c :: cs) = true :=
      List.isPrefixOf_iff_prefix.mpr ⟨rest, hs.symm⟩
    have hemp : old'.isEmpty = false := by
      cases old' with
      | nil => exact absurd rfl hne
      | cons a b => rfl
    simp only [specReplaceLiteral, hpre, hemp, Bool.not_false, Bool.and_self, if_true]
    rw [specReplaceLiteral_skip old' new' cs (old'.length - 1), hlen]
    simp

theorem replacerReplace_two (p1 p2 : List Char × List Char) (hne1 : p1.1 ≠ [])
    (hne2 : p2.1 ≠ [])
    (ha : ∀ j, j < p1.2.length → clash p2.1 (p1.2.drop j) = true)
    (hb : ∀ j, j < p2.1.length → clash p1.1 (p2.1.drop j) = true)
    (hc : ∀ j, j < p2.1.length → clash (p2.1.drop j) p1.2 = true) (s : List Char) :
    replacerReplace [p1, p2] s = replacerReplace [p2] (replacerReplace [p1] s) := by
  have hne : ∀ p ∈ [p1, p2], p.1 ≠ [] := by
    intro p hp
    simp only [List.mem_cons, List.mem_singleton, List.not_mem_nil, or_false] at hp
    rcases hp with h | h <;> subst h <;> assumption
  refine scan_induction (replacerMatchAt [p1, p2])
    (fun s => replacerReplace [p1, p2] s = replacerReplace [p2] (replacerReplace [p1] s))
    ?_ ?_ ?_ s
  · simp [replacerReplace_nil]
  · intro c cs hno ih
    have hn1 : ¬ p1.1 <+: c :: cs := by
      intro hp
      obtain ⟨n, hn⟩ := replacerMatchAt_hits [p1, p2] hne p1.1 p1.2 (c :: cs)
        (by simp) hp
      exact hno n hn
    have hn2 : ¬ p2.1 <+: c :: cs := by
      intro hp
      obtain ⟨n, hn⟩ := replacerMatchAt_hits [p1, p2] hne p2.1 p2.2 (c :: cs)
        (by simp) hp
      exact hno n hn
    have e1 : replacerReplace [p1] (c :: cs) = c :: replacerReplace [p1] cs :=
      replacerReplace_lit _ c cs (replacerMatchAt_single_none p1 _ hn1)
    have hn3 : ¬ p2.1 <+: c :: replacerReplace [p1] cs := by
      intro hp
      rw [← e1] at hp
      exact hn2 (replacerReplace_reflects [p1] p2.1
        (fun j hj p hp' => by
          simp only [List.mem_singleton] at hp'
          subst hp'
          exact hc j hj) (c :: cs) hp).1
    rw [replacerReplace_lit _ c cs hno, e1,
      replacerReplace_lit _ c _ (replacerMatchAt_single_none p2 _ hn3), ih]
  · intro c cs n hn ih
    obtain ⟨old, new, rest, hp, hs, hlen, hout⟩ := replacerReplace_hit _ _ n hn
    have hrest : (c :: cs).drop (n + 1) = rest := by
      rw [hs, ← hlen]; exact List.drop_left' rfl
    rw [hrest] at ih
    rw [hout, ih, hs]
    simp only [List.mem_cons, List.mem_singleton, List.not_mem_nil, or_false] at hp
    rcases hp with h | h
    · have ho : old = p1.1 := by rw [← h]
      have hw : new = p1.2 := by rw [← h]
      subst ho; subst hw
      rw [replacerReplace_single_hit p1 hne1 rest]
      rw [replacerReplace_pass [p2] p1.2 _ (fun j hj p hp' => by
        simp only [List.mem_singleton] at hp'
        subst hp'
        exact ha j hj)]
    · have ho : old = p2.1 := by rw [← h]
      have hw : new = p2.2 := by rw [← h]
      subst ho; subst hw
      rw [replacerReplace_pass [p1] p2.1 _ (fun j hj p hp' => by
        simp only [List.mem_singleton] at hp'
        subst hp'
        exact hb j hj)]
      rw [replacerReplace_single_hit p2 hne2]

theorem ksmMetricsReplacer_eq_spec (s : List Char) :
    ksmMetricsReplacer s = specMetricRename s := by
  have h := replacerReplace_two
    ("kubernetes_state.nodes.by_condition".toList, "kubernetes_state.node.by_condition".toList)
    ("kubernetes_state.persistentvolumes.by_phase".toList,
      "kubernetes_state.persistentvolume.by_phase".toList)
    (by decide) (by decide) (by decide) (by decide) (by decide) s
  have e1 := specReplaceLiteral_eq "kubernetes_state.nodes.by_condition".toList
    "kubernetes_state.node.by_condition".toList (by decide) s
  have e2 := specReplaceLiteral_eq "kubernetes_state.persistentvolumes.by_phase".toList
    "kubernetes_state.persistentvolume.by_phase".toList (by decide)
    (replacerReplace [("kubernetes_state.nodes.by_condition".toList,
      "kubernetes_state.node.by_condition".toList)] s)
  show replacerReplace ksmMetricsPairs s = _
  unfold specMetricRename ksmMetricsPairs
  simp only [List.foldl_cons, List.foldl_nil]
  rw [e1, e2]
  exact h

theorem ksmMetricsReplacer_no_old (s : List Char) :
    ∀ p ∈ ksmMetricsPairs, ¬ p.1 <:+: ksmMetricsReplacer s :=
  replacerReplace_no_old ksmMetricsPairs (by decide) (by decide) (by decide) s

/-! ## The variable references of a query -/

theorem mem_addVariables (ms : List (List Char)) :
    ∀ (S : Finset (List Char)) (x : List Char),
      x ∈ addVariables ms S ↔ x ∈ S ∨ ∃ m ∈ ms, x = m.drop 1 := by
  induction ms with
  | nil => intro S x; simp [addVariables]
  | cons m ms ih =>
    intro S x
    have := ih (insert (m.drop 1) S) x
    simp only [addVariables, List.foldl_cons] at this ⊢
    rw [this]
    simp only [Finset.mem_insert, List.mem_cons, exists_eq_or_imp]
    constructor
    · rintro ((h | h) | h)
      · exact Or.inr (Or.inl h)
      · exact Or.inl h
      · exact Or.inr (Or.inr h)
    · rintro (h | h | h)
      · exact Or.inl (Or.inr h)
      · exact Or.inl (Or.inl h)
      · exact Or.inr h

theorem variableReferenceRegexp_some {s : List Char} {k : Nat}
    (h : variableReferenceRegexp s = some k) :
    ∃ rest : List Char, s = '$' :: rest ∧ (rest.head?.map isVarChar).getD false = true ∧
      k = (rest.takeWhile isVarChar).length + 1 := by
  cases s with
  | nil => simp [variableReferenceRegexp] at h
  | cons c rest =>
    simp only [variableReferenceRegexp] at h
    split at h
    · next hc =>
      simp only [Bool.and_eq_true, beq_iff_eq] at hc
      obtain ⟨hc1, hc2⟩ := hc
      subst hc1
      exact ⟨rest, rfl, hc2, by simpa using h.symm⟩
    · simp at h

theorem variableReferenceRegexp_dollar (name post : List Char) (hne : name ≠ [])
    (hname : ∀ c ∈ name, isVarChar c = true)
    (hpost : (post.head?.map isVarChar).getD false = false) :
    variableReferenceRegexp ('$' :: (name ++ post)) = some (name.length + 1) ∧
      (name ++ post).takeWhile isVarChar = name := by
  have htw : (name ++ post).takeWhile isVarChar = name := by
    rw [List.takeWhile_append_of_pos hname]
    cases post with
    | nil => simp
    | cons a b =>
      simp only [List.head?_cons, Option.map_some', Option.getD_some] at hpost
      simp [List.takeWhile_cons, hpost]
  refine ⟨?_, htw⟩
  cases name with
  | nil => exact absurd rfl hne
  | cons a b =>
    have ha : isVarChar a = true := hname a (List.mem_cons_self _ _)
    simp only [variableReferenceRegexp, List.cons_append, List.head?_cons, Option.map_some',
      Option.getD_some, ha, beq_self_eq_true, Bool.and_self, if_true]
    rw [← List.cons_append, htw]

theorem take_length_takeWhile (p : Char → Bool) :
    ∀ l : List Char, l.take (l.takeWhile p).length = l.takeWhile p
  | [] => rfl
  | a :: l => by
    rw [List.takeWhile_cons]
    split
    · simp [take_length_takeWhile p l]
    · simp

theorem findAllString_variable_sound (query m : List Char)
    (h : m ∈ findAllString variableReferenceRegexp query) :
    ∃ name : List Char, m = '$' :: name ∧ IsVariableReference query name := by
  obtain ⟨s', n, hs, hf, hm⟩ := findAllString_mem _ query m h
  obtain ⟨rest, hs', hhead, hk⟩ := variableReferenceRegexp_some hf
  obtain ⟨pre, hpre⟩ := hs
  subst hs'
  have hsplit : rest = rest.takeWhile isVarChar ++ rest.dropWhile isVarChar :=
    (List.takeWhile_append_dropWhile isVarChar rest).symm
  have hn : n = (rest.takeWhile isVarChar).length := by omega
  have hm' : m = '$' :: rest.takeWhile isVarChar := by
    rw [hm, List.take_succ_cons, hn, take_length_takeWhile]
  refine ⟨rest.takeWhile isVarChar, hm', pre, rest.dropWhile isVarChar, ?_, ?_, ?_, ?_⟩
  · rw [← hsplit]; exact hpre.symm
  · cases rest with
    | nil => simp at hhead
    | cons a b =>
      simp only [List.head?_cons, Option.map_some', Option.getD_some] at hhead
      simp [List.takeWhile_cons, hhead]
  · intro c hc
    exact (List.mem_takeWhile_imp hc)
  · have := List.head?_dropWhile_not isVarChar rest
    cases hx : (rest.dropWhile isVarChar).head? with
    | none => rfl
    | some a =>
      rw [hx] at this
      simpa using this

theorem scan_variable_complete (name post : List Char) (hne : name ≠ [])
    (hname : ∀ c ∈ name, isVarChar c = true)
    (hpost : (post.head?.map isVarChar).getD false = false) :
    ∀ (s : List Char) (k : Nat) (pre : List Char),
      (∀ c ∈ s.take k, isVarChar c = true) → s = pre ++ '$' :: (name ++ post) →
      Piece.hit ('$' :: name) ∈ scan variableReferenceRegexp s k := by
  intro s
  induction s with
  | nil => intro k pre _ hs; simp at hs
  | cons c cs ih =>
    intro k pre hk hs
    obtain ⟨hmatch, htw⟩ := variableReferenceRegexp_dollar name post hne hname hpost
    cases k with
    | succ k' =>
      have hc : isVarChar c = true := hk c (by simp)
      cases pre with
      | nil =>
        simp only [List.nil_append, List.cons.injEq] at hs
        rw [hs.1] at hc
        exact absurd hc (by decide)
      | cons a pre' =>
        simp only [List.cons_append, List.cons.injEq] at hs
        simp only [scan]
        exact ih k' pre' (fun x hx => hk x (by simp [hx])) hs.2
    | zero =>
      cases pre with
      | nil =>
        simp only [List.nil_append] at hs
        rw [hs]
        rw [scan_cons_hit _ _ _ _ hmatch]
        have : ('$' :: (name ++ post)).take (name.length + 1) = '$' :: name := by
          rw [List.take_succ_cons, List.take_left' rfl]
        rw [this]
        exact List.mem_cons_self _ _
      | cons a pre' =>
        simp only [List.cons_append, List.cons.injEq] at hs
        obtain ⟨hca, hcs⟩ := hs
        by_cases hm : ∃ n, variableReferenceRegexp (c :: cs) = some (n + 1)
        · obtain ⟨n, hn⟩ := hm
          simp only [scan, hn]
          apply List.mem_cons_of_mem
          obtain ⟨rest, hrest, _, hlen⟩ := variableReferenceRegexp_some hn
          simp only [List.cons.injEq] at hrest
          have hn' : n = (cs.takeWhile isVarChar).length := by
            rw [hrest.2]; omega
          apply ih n pre' _ hcs
          intro x hx
          have htake : cs.take n = cs.takeWhile isVarChar := by
            rw [hn', take_length_takeWhile]
          rw [htake] at hx
          exact List.mem_takeWhile_imp hx
        · have hno : ∀ n, variableReferenceRegexp (c :: cs) ≠ some (n + 1) :=
            fun n hn => hm ⟨n, hn⟩
          rw [scan_cons_lit _ c cs hno]
          apply List.mem_cons_of_mem
          exact ih 0 pre' (by simp) hcs

theorem findAllString_variable_iff (query name : List Char) :
    ('$' :: name) ∈ findAllString variableReferenceRegexp query ↔
      IsVariableReference query name := by
  constructor
  · intro h
    obtain ⟨n, hn, href⟩ := findAllString_variable_sound query _ h
    simp only [List.cons.injEq, true_and] at hn
    rw [hn]; exact href
  · rintro ⟨pre, post, hq, hne, hname, hpost⟩
    unfold findAllString
    rw [List.mem_filterMap]
    exact ⟨Piece.hit ('$' :: name),
      scan_variable_complete name post hne hname hpost query 0 pre (by simp) hq, rfl⟩

theorem mem_used_after (query : List Char) (S : Finset (List Char)) (name : List Char) :
    name ∈ addVariables (findAllString variableReferenceRegexp query) S ↔
      name ∈ S ∨ IsVariableReference query name := by
  rw [mem_addVariables]
  constructor
  · rintro (h | ⟨m, hm, hx⟩)
    · exact Or.inl h
    · obtain ⟨n, hn, href⟩ := findAllString_variable_sound query m hm
      subst hn
      simp only [List.drop_succ_cons, List.drop_zero] at hx
      subst hx
      exact Or.inr href
  · rintro (h | h)
    · exact Or.inl h
    · exact Or.inr ⟨'$' :: name, (findAllString_variable_iff query name).mpr h, by simp⟩

/-! ## Requests and widgets in closed form -/

theorem patchQueryString_fst (q : List Char) (used : Option (Finset (List Char))) :
    (patchQueryString q used).1 = (patchQueryString q none).1 := by
  cases h : stringsContains q "kubernetes_state.".toList with
  | false => rw [patchQueryString_fast q used h, patchQueryString_fast q none h]
  | true => rw [patchQueryString_slow q used h, patchQueryString_slow q none h]

theorem queryReportsChange_iff (q : List Char) (used : Option (Finset (List Char))) :
    (patchQueryString q used).1.patched ≠ [] ↔ queryReportsChange q = true := by
  rw [patchQueryString_fst q used]
  unfold queryReportsChange
  cases (patchQueryString q none).1.patched <;> simp

theorem queryAfter_of_change (q : List Char) (used : Option (Finset (List Char)))
    (h : (patchQueryString q used).1.patched ≠ []) :
    (patchQueryString q used).1.patched = queryAfter q := by
  rw [patchQueryString_fst q used] at h ⊢
  unfold queryAfter
  rw [if_pos h]

theorem queryAfter_of_no_change (q : List Char) (used : Option (Finset (List Char)))
    (h : ¬ (patchQueryString q used).1.patched ≠ []) : q = queryAfter q := by
  rw [patchQueryString_fst q used] at h
  unfold queryAfter
  rw [if_neg h]

theorem patchQueries_eq :
    ∀ (qs : List FormulaAndFunctionQueryDefinition) (b : Bool)
      (used : Option (Finset (List Char))),
      (patchQueries qs b used).doc = qs.map rewriteQueryDefinition ∧
        (patchQueries qs b used).changed = (b || qs.any definitionReportsChange)
  | [], b, used => by simp [patchQueries]
  | FormulaAndFunctionQueryDefinition.other p :: rest, b, used => by
    have ih := patchQueries_eq rest b used
    simp only [patchQueries, List.map_cons, rewriteQueryDefinition, List.any_cons,
      definitionReportsChange, Bool.false_or]
    exact ⟨by rw [ih.1], ih.2⟩
  | FormulaAndFunctionQueryDefinition.metric n query :: rest, b, used => by
    simp only [patchQueries, patchQueryString_err, List.map_cons, rewriteQueryDefinition,
      List.any_cons, definitionReportsChange]
    split
    · next hch =>
      have ih := patchQueries_eq rest true (patchQueryString query used).2
      have hr := (queryReportsChange_iff query used).mp hch
      simp only
      rw [ih.1, ih.2, queryAfter_of_change query used hch, hr]
      simp
    · next hch =>
      have ih := patchQueries_eq rest b (patchQueryString query used).2
      have hr : queryReportsChange query = false := by
        cases hx : queryReportsChange query with
        | false => rfl
        | true => exact absurd ((queryReportsChange_iff query used).mpr hx) hch
      simp only
      rw [ih.1, ih.2, ← queryAfter_of_no_change query used hch, hr]
      simp

theorem patchRequestQueries_eq (req : Request) (b : Bool)
    (used : Option (Finset (List Char))) :
    (patchRequestQueries req b used).doc =
        { req with queries := req.queries.map (List.map rewriteQueryDefinition) } ∧
      (patchRequestQueries req b used).changed =
        (b || (req.queries.getD []).any definitionReportsChange) := by
  unfold patchRequestQueries
  cases hq : req.queries with
  | none =>
    simp only [Option.map_none', Option.getD_none, List.any_nil, Bool.or_false, and_true]
    cases req
    simp only at hq
    subst hq
    rfl
  | some queries =>
    simp only [Option.map_some', Option.getD_some]
    exact ⟨by rw [(patchQueries_eq queries b used).1], (patchQueries_eq queries b used).2⟩

theorem patchRequestWidget_eq (req : Request) (used : Option (Finset (List Char))) :
    (patchRequestWidget req used).doc =
        { q := req.q.map queryAfter,
          queries := req.queries.map (List.map rewriteQueryDefinition) } ∧
      (patchRequestWidget req used).changed =
        ((req.q.map queryReportsChange).getD false ||
          (req.queries.getD []).any definitionReportsChange) := by
  unfold patchRequestWidget
  cases hq : req.q with
  | none =>
    simp only [Option.map_none', Option.getD_none, Bool.false_or]
    have h := patchRequestQueries_eq req false used
    rw [h.1, h.2, hq]
    simp
  | some q =>
    simp only [patchQueryString_err, Option.map_some', Option.getD_some]
    split
    · next hch =>
      have h := patchRequestQueries_eq { req with q := some (patchQueryString q used).1.patched }
        true (patchQueryString q used).2
      rw [h.1, h.2, queryAfter_of_change q used hch, (queryReportsChange_iff q used).mp hch]
      simp
    · next hch =>
      have h := patchRequestQueries_eq req false (patchQueryString q used).2
      have hr : queryReportsChange q = false := by
        cases hx : queryReportsChange q with
        | false => rfl
        | true => exact absurd ((queryReportsChange_iff q used).mpr hx) hch
      rw [h.1, h.2, hr, hq, ← queryAfter_of_no_change q used hch]
      simp

theorem patchRequestWidget_indep (req : Request) (used : Option (Finset (List Char))) :
    (patchRequestWidget req used).doc = rewriteRequest req ∧
      (patchRequestWidget req used).changed = requestChanged req := by
  unfold rewriteRequest requestChanged
  rw [(patchRequestWidget_eq req used).1, (patchRequestWidget_eq req used).2,
    (patchRequestWidget_eq req none).1, (patchRequestWidget_eq req none).2]
  exact ⟨rfl, rfl⟩

theorem patchRequests_eq :
    ∀ (reqs : List Request) (b : Bool) (used : Option (Finset (List Char))),
      (patchRequests reqs b used).doc = reqs.map rewriteRequest ∧
        (patchRequests reqs b used).changed = (b || reqs.any requestChanged)
  | [], b, used => by simp [patchRequests]
  | req :: rest, b, used => by
    have ih := patchRequests_eq rest (b || (patchRequestWidget req used).changed)
      (patchRequestWidget req used).used
    simp only [patchRequests, (patchRequestWidget_ok req used).1, List.map_cons, List.any_cons]
    rw [ih.1, ih.2, (patchRequestWidget_indep req used).1, (patchRequestWidget_indep req used).2]
    simp [Bool.or_assoc]

mutual
theorem patchWidget_eq :
    ∀ (w : Widget) (b : Bool) (used : Option (Finset (List Char))),
      (patchWidget w b used).doc = rewriteWidget w ∧
        (patchWidget w b used).changed = (b || (widgetRequests w).any requestChanged)
  | Widget.group ws, b, used => by
    have ih := patchWidgetsFrom_eq ws false used
    have hok := patchWidgetsFrom_ok ws false used
    simp only [patchWidget, hok.1, rewriteWidget, widgetRequests]
    rw [ih.1, ih.2]
    simp
  | Widget.change reqs, b, used => by
    simp only [patchWidget, rewriteWidget, widgetRequests]
    rw [(patchRequests_eq reqs b used).1, (patchRequests_eq reqs b used).2]
    exact ⟨rfl, rfl⟩
  | Widget.table reqs, b, used => by
    simp only [patchWidget, rewriteWidget, widgetRequests]
    rw [(patchRequests_eq reqs b used).1, (patchRequests_eq reqs b used).2]
    exact ⟨rfl, rfl⟩
  | Widget.queryValue reqs, b, used => by
    simp only [patchWidget, rewriteWidget, widgetRequests]
    rw [(patchRequests_eq reqs b used).1, (patchRequests_eq reqs b used).2]
    exact ⟨rfl, rfl⟩
  | Widget.timeseries reqs, b, used => by
    simp only [patchWidget, rewriteWidget, widgetRequests]
    rw [(patchRequests_eq reqs b used).1, (patchRequests_eq reqs b used).2]
    exact ⟨rfl, rfl⟩
  | Widget.toplist reqs, b, used => by
    simp only [patchWidget, rewriteWidget, widgetRequests]
    rw [(patchRequests_eq reqs b used).1, (patchRequests_eq reqs b used).2]
    exact ⟨rfl, rfl⟩
  | Widget.treeMap reqs, b, used => by
    simp only [patchWidget, rewriteWidget, widgetRequests]
    rw [(patchRequests_eq reqs b used).1, (patchRequests_eq reqs b used).2]
    exact ⟨rfl, rfl⟩
  | Widget.other k, b, used => by
    simp [patchWidget, rewriteWidget, widgetRequests]
theorem patchWidgetsFrom_eq :
    ∀ (ws : List Widget) (b : Bool) (used : Option (Finset (List Char))),
      (patchWidgetsFrom ws b used).doc = rewriteWidgets ws ∧
        (patchWidgetsFrom ws b used).changed = (b || (widgetsRequests ws).any requestChanged)
  | [], b, used => by simp [patchWidgetsFrom, rewriteWidgets, widgetsRequests]
  | w :: rest, b, used => by
    have hw := patchWidget_eq w b used
    have hr := patchWidgetsFrom_eq rest (patchWidget w b used).changed (patchWidget w b used).used
    simp only [patchWidgetsFrom, (patchWidget_ok w b used).1, rewriteWidgets, widgetsRequests]
    rw [hr.1, hr.2, hw.1, hw.2]
    simp [Bool.or_assoc]
end

mutual
theorem sameShape_rewriteWidget : ∀ w : Widget, sameShape w (rewriteWidget w) = true
  | Widget.group ws => by
    simp only [rewriteWidget, sameShape]
    exact sameShapes_rewriteWidgets ws
  | Widget.change reqs => by simp [rewriteWidget, sameShape]
  | Widget.table reqs => by simp [rewriteWidget, sameShape]
  | Widget.queryValue reqs => by simp [rewriteWidget, sameShape]
  | Widget.timeseries reqs => by simp [rewriteWidget, sameShape]
  | Widget.toplist reqs => by simp [rewriteWidget, sameShape]
  | Widget.treeMap reqs => by simp [rewriteWidget, sameShape]
  | Widget.other k => by simp [rewriteWidget, sameShape]
theorem sameShapes_rewriteWidgets : ∀ ws : List Widget, sameShapes ws (rewriteWidgets ws) = true
  | [] => by simp [rewriteWidgets, sameShapes]
  | w :: ws => by
    simp only [rewriteWidgets, sameShapes, Bool.and_eq_true]
    exact ⟨sameShape_rewriteWidget w, sameShapes_rewriteWidgets ws⟩
end

/-! ## The order of the alternatives -/

theorem findSome?_eq_of_perm {α β : Type} {l₁ l₂ : List α} (f : α → Option β)
    (hp : l₁.Perm l₂)
    (hu : ∀ a ∈ l₁, ∀ b ∈ l₁, ∀ x y, f a = some x → f b = some y → x = y) :
    l₁.findSome? f = l₂.findSome? f := by
  cases h1 : l₁.findSome? f with
  | none =>
    cases h2 : l₂.findSome? f with
    | none => rfl
    | some y =>
      obtain ⟨b, hb, hfb⟩ := List.exists_of_findSome?_eq_some h2
      have := List.findSome?_eq_none_iff.mp h1 b (hp.mem_iff.mpr hb)
      rw [this] at hfb
      cases hfb
  | some x =>
    obtain ⟨a, ha, hfa⟩ := List.exists_of_findSome?_eq_some h1
    cases h2 : l₂.findSome? f with
    | none =>
      have := List.findSome?_eq_none_iff.mp h2 a (hp.mem_iff.mp ha)
      rw [this] at hfa
      cases hfa
    | some y =>
      obtain ⟨b, hb, hfb⟩ := List.exists_of_findSome?_eq_some h2
      rw [hu a ha b (hp.mem_iff.mpr hb) x y hfa hfb]

theorem append_cons_unique :
    ∀ (a b : List Char) (ea eb : Char) (ra rb : List Char),
      a ++ ea :: ra = b ++ eb :: rb → ea ∉ b → eb ∉ a → a = b
  | [], [], _, _, _, _, _, _, _ => rfl
  | [], y :: b, ea, eb, ra, rb, h, hea, _ => by
    simp only [List.nil_append, List.cons_append, List.cons.injEq] at h
    exact absurd (h.1 ▸ List.mem_cons_self _ _) hea
  | x :: a, [], ea, eb, ra, rb, h, _, heb => by
    simp only [List.nil_append, List.cons_append, List.cons.injEq] at h
    exact absurd (h.1 ▸ List.mem_cons_self _ _) heb
  | x :: a, y :: b, ea, eb, ra, rb, h, hea, heb => by
    simp only [List.cons_append, List.cons.injEq] at h
    obtain ⟨hxy, hrest⟩ := h
    subst hxy
    have := append_cons_unique a b ea eb ra rb hrest
      (fun hm => hea (List.mem_cons_of_mem _ hm)) (fun hm => heb (List.mem_cons_of_mem _ hm))
    rw [this]

theorem ksmOriginalTags_no_delim :
    ∀ t ∈ ksmOriginalTags, ∀ c ∈ t, isRightDelim c = false ∧ c ≠ '.' := by
  decide

theorem key_before_delimiter_unique (a b : List Char) (ha : a ∈ ksmOriginalTags)
    (hb : b ∈ ksmOriginalTags) (ea eb : Char) (ra rb : List Char)
    (hea : isRightDelim ea = true) (heb : isRightDelim eb = true)
    (h : a ++ ea :: ra = b ++ eb :: rb) : a = b := by
  apply append_cons_unique a b ea eb ra rb h
  · intro hm
    have := (ksmOriginalTags_no_delim b hb ea hm).1
    rw [hea] at this
    cases this
  · intro hm
    have := (ksmOriginalTags_no_delim a ha eb hm).1
    rw [heb] at this
    cases this

theorem key_before_name_unique (a b : List Char) (ha : a ∈ ksmOriginalTags)
    (hb : b ∈ ksmOriginalTags) (s : List Char) (h1 : (a ++ ".name".toList) <+: s)
    (h2 : (b ++ ".name".toList) <+: s) : a = b := by
  obtain ⟨r1, hr1⟩ := h1
  obtain ⟨r2, hr2⟩ := h2
  have h : a ++ '.' :: ("name".toList ++ r1) = b ++ '.' :: ("name".toList ++ r2) := by
    have e1 : a ++ '.' :: ("name".toList ++ r1) = a ++ ".name".toList ++ r1 := by simp
    have e2 : b ++ '.' :: ("name".toList ++ r2) = b ++ ".name".toList ++ r2 := by simp
    rw [e1, e2, hr1, hr2]
  apply append_cons_unique a b '.' '.' _ _ h
  · intro hm; exact (ksmOriginalTags_no_delim b hb '.' hm).2 rfl
  · intro hm; exact (ksmOriginalTags_no_delim a ha '.' hm).2 rfl

theorem tagRegexpMatchAt_perm (tags : List (List Char)) (hp : tags.Perm ksmOriginalTags)
    (s : List Char) : tagRegexpMatchAt tags s = tagRegexpMatchAt ksmOriginalTags s := by
  cases s with
  | nil => rfl
  | cons d rest =>
    simp only [tagRegexpMatchAt]
    split
    · apply findSome?_eq_of_perm _ hp
      intro a ha b hb x y hx hy
      split at hx
      · next hca =>
        split at hy
        · next hcb =>
          simp only [Bool.and_eq_true, List.isPrefixOf_iff_prefix] at hca hcb
          obtain ⟨⟨ra, hra⟩, hda⟩ := hca
          obtain ⟨⟨rb, hrb⟩, hdb⟩ := hcb
          subst hra
          simp only [List.drop_left] at hda
          cases ra with
          | nil => simp at hda
          | cons ea ra' =>
            rw [← hrb] at hdb
            simp only [List.drop_left] at hdb
            cases rb with
            | nil => simp at hdb
            | cons eb rb' =>
              simp only [List.head?_cons, Option.map_some', Option.getD_some] at hda hdb
              have hab := key_before_delimiter_unique a b (hp.mem_iff.mp ha) (hp.mem_iff.mp hb)
                ea eb ra' rb' hda hdb hrb.symm
              subst hab
              rw [hx] at hy
              exact Option.some.inj hy
        · cases hy
      · cases hx
    · rfl

theorem templateRegexpMatchAt_perm (tags : List (List Char))
    (hp : tags.Perm ksmOriginalTags) (s : List Char) :
    templateRegexpMatchAt tags s = templateRegexpMatchAt ksmOriginalTags s := by
  unfold templateRegexpMatchAt
  apply findSome?_eq_of_perm _ hp
  intro a ha b hb x y hx hy
  split at hx
  · next hca =>
    split at hy
    · next hcb =>
      have hab := key_before_name_unique a b (hp.mem_iff.mp ha) (hp.mem_iff.mp hb) s
        (List.isPrefixOf_iff_prefix.mp hca) (List.isPrefixOf_iff_prefix.mp hcb)
      subst hab
      rw [hx] at hy
      exact Option.some.inj hy
    · cases hy
  · cases hx

theorem patchQueryStringWith_perm (tags : List (List Char)) (hp : tags.Perm ksmOriginalTags)
    (q : List Char) (S : Option (Finset (List Char))) :
    patchQueryStringWith tags q S = patchQueryString q S := by
  have hf : tagRegexpMatchAt tags = ksmTagReplaceRegexp :=
    funext (tagRegexpMatchAt_perm tags hp)
  unfold patchQueryStringWith patchQueryString replaceTagsWith replaceTags
  rw [hf]

theorem patchTemplateStringWith_perm (tags : List (List Char))
    (hp : tags.Perm ksmOriginalTags) (t : List Char) :
    patchTemplateStringWith tags t = patchTemplateString t := by
  have hf : templateRegexpMatchAt tags = templateVarRegexp :=
    funext (templateRegexpMatchAt_perm tags hp)
  unfold patchTemplateStringWith patchTemplateString
  rw [hf]

/-! ## The used-variable map after the walk -/

theorem referencedIn_nil (name : List Char) : ¬ referencedIn [] name := by
  rintro ⟨q, hq, _⟩
  simp at hq

theorem referencedIn_append (qs1 qs2 : List (List Char)) (name : List Char) :
    referencedIn (qs1 ++ qs2) name ↔ referencedIn qs1 name ∨ referencedIn qs2 name := by
  unfold referencedIn
  constructor
  · rintro ⟨q, hq, h⟩
    rcases List.mem_append.mp hq with h1 | h2
    · exact Or.inl ⟨q, h1, h⟩
    · exact Or.inr ⟨q, h2, h⟩
  · rintro (⟨q, hq, h⟩ | ⟨q, hq, h⟩)
    · exact ⟨q, List.mem_append_left _ hq, h⟩
    · exact ⟨q, List.mem_append_right _ hq, h⟩

theorem usedAfter_nil (S : Finset (List Char)) : usedAfter [] S (some S) :=
  ⟨S, rfl, fun name => ⟨Or.inl, fun h => h.elim id (fun h' => absurd h' (referencedIn_nil name))⟩⟩

theorem usedAfter_append {qs1 qs2 : List (List Char)} {S : Finset (List Char)}
    {r1 r2 : Option (Finset (List Char))} (h1 : usedAfter qs1 S r1)
    (h2 : ∀ S1 : Finset (List Char), r1 = some S1 → usedAfter qs2 S1 r2) :
    usedAfter (qs1 ++ qs2) S r2 := by
  obtain ⟨S1, hr1, hS1⟩ := h1
  obtain ⟨S2, hr2, hS2⟩ := h2 S1 hr1
  refine ⟨S2, hr2, fun name => ?_⟩
  rw [hS2 name, hS1 name, referencedIn_append]
  exact or_assoc

theorem patchQueryString_usedAfter (q : List Char) (S : Finset (List Char)) :
    usedAfter [q] S (patchQueryString q (some S)).2 := by
  cases h : stringsContains q "kubernetes_state.".toList with
  | false =>
    rw [patchQueryString_fast q (some S) h]
    refine ⟨S, rfl, fun name => ⟨Or.inl, ?_⟩⟩
    rintro (hS | ⟨q', hq', hm, _⟩)
    · exact hS
    · simp only [List.mem_singleton] at hq'
      subst hq'
      have := (stringsContains_iff _ _).mpr hm
      rw [h] at this
      cases this
  | true =>
    rw [patchQueryString_slow q (some S) h]
    refine ⟨addVariables (findAllString variableReferenceRegexp q) S, rfl, fun name => ?_⟩
    rw [mem_used_after]
    constructor
    · rintro (hS | href)
      · exact Or.inl hS
      · exact Or.inr ⟨q, by simp, (stringsContains_iff _ _).mp h, href⟩
    · rintro (hS | ⟨q', hq', _, href⟩)
      · exact Or.inl hS
      · simp only [List.mem_singleton] at hq'
        subst hq'
        exact Or.inr href

theorem patchQueries_usedAfter :
    ∀ (qs : List FormulaAndFunctionQueryDefinition) (b : Bool) (S : Finset (List Char)),
      usedAfter (qs.filterMap metricQueryOf) S (patchQueries qs b (some S)).used
  | [], b, S => by
    simp only [patchQueries, List.filterMap_nil]
    exact usedAfter_nil S
  | FormulaAndFunctionQueryDefinition.other p :: rest, b, S => by
    simp only [patchQueries, List.filterMap_cons, metricQueryOf]
    exact patchQueries_usedAfter rest b S
  | FormulaAndFunctionQueryDefinition.metric n query :: rest, b, S => by
    have hq := patchQueryString_usedAfter query S
    have key : ∀ b' : Bool, usedAfter ([query] ++ rest.filterMap metricQueryOf) S
        (patchQueries rest b' (patchQueryString query (some S)).2).used := by
      intro b'
      refine usedAfter_append hq (fun S1 hS1 => ?_)
      rw [hS1]
      exact patchQueries_usedAfter rest b' S1
    simp only [patchQueries, patchQueryString_err, List.filterMap_cons, metricQueryOf]
    split
    · exact key true
    · exact key b

theorem patchRequestQueries_usedAfter (req : Request) (b : Bool) (S : Finset (List Char)) :
    usedAfter ((req.queries.getD []).filterMap metricQueryOf) S
      (patchRequestQueries req b (some S)).used := by
  unfold patchRequestQueries
  cases hq : req.queries with
  | none =>
    simp only [Option.getD_none, List.filterMap_nil]
    exact usedAfter_nil S
  | some queries =>
    simp only [Option.getD_some]
    exact patchQueries_usedAfter queries b S

theorem patchRequestWidget_usedAfter (req : Request) (S : Finset (List Char)) :
    usedAfter (requestQueries req) S (patchRequestWidget req (some S)).used := by
  unfold patchRequestWidget requestQueries
  cases hq : req.q with
  | none =>
    simp only [Option.toList, List.nil_append]
    exact patchRequestQueries_usedAfter req false S
  | some q =>
    have hq' := patchQueryString_usedAfter q S
    simp only [patchQueryString_err, Option.toList]
    split
    · refine usedAfter_append hq' (fun S1 hS1 => ?_)
      rw [hS1]
      exact patchRequestQueries_usedAfter
        { req with q := some (patchQueryString q (some S)).1.patched } true S1
    · refine usedAfter_append hq' (fun S1 hS1 => ?_)
      rw [hS1]
      exact patchRequestQueries_usedAfter req false S1

theorem patchRequests_usedAfter :
    ∀ (reqs : List Request) (b : Bool) (S : Finset (List Char)),
      usedAfter (requestsQueries reqs) S (patchRequests reqs b (some S)).used
  | [], b, S => by
    simp only [patchRequests, requestsQueries]
    exact usedAfter_nil S
  | req :: rest, b, S => by
    simp only [patchRequests, (patchRequestWidget_ok req (some S)).1, requestsQueries]
    refine usedAfter_append (patchRequestWidget_usedAfter req S) (fun S1 hS1 => ?_)
    rw [hS1]
    exact patchRequests_usedAfter rest _ S1

theorem requestsQueries_append (a b : List Request) :
    requestsQueries (a ++ b) = requestsQueries a ++ requestsQueries b := by
  induction a with
  | nil => rfl
  | cons r a ih => simp [requestsQueries, ih]

mutual
theorem patchWidget_usedAfter :
    ∀ (w : Widget) (b : Bool) (S : Finset (List Char)),
      usedAfter (requestsQueries (widgetRequests w)) S (patchWidget w b (some S)).used
  | Widget.group ws, b, S => by
    have ih := patchWidgetsFrom_usedAfter ws false S
    simp only [patchWidget, (patchWidgetsFrom_ok ws false (some S)).1, widgetRequests]
    exact ih
  | Widget.change reqs, b, S => by
    simp only [patchWidget, widgetRequests]; exact patchRequests_usedAfter reqs b S
  | Widget.table reqs, b, S => by
    simp only [patchWidget, widgetRequests]; exact patchRequests_usedAfter reqs b S
  | Widget.queryValue reqs, b, S => by
    simp only [patchWidget, widgetRequests]; exact patchRequests_usedAfter reqs b S
  | Widget.timeseries reqs, b, S => by
    simp only [patchWidget, widgetRequests]; exact patchRequests_usedAfter reqs b S
  | Widget.toplist reqs, b, S => by
    simp only [patchWidget, widgetRequests]; exact patchRequests_usedAfter reqs b S
  | Widget.treeMap reqs, b, S => by
    simp only [patchWidget, widgetRequests]; exact patchRequests_usedAfter reqs b S
  | Widget.other k, b, S => by
    simp only [patchWidget, widgetRequests, requestsQueries]
    exact usedAfter_nil S
theorem patchWidgetsFrom_usedAfter :
    ∀ (ws : List Widget) (b : Bool) (S : Finset (List Char)),
      usedAfter (requestsQueries (widgetsRequests ws)) S (patchWidgetsFrom ws b (some S)).used
  | [], b, S => by
    simp only [patchWidgetsFrom, widgetsRequests, requestsQueries]
    exact usedAfter_nil S
  | w :: rest, b, S => by
    simp only [patchWidgetsFrom, (patchWidget_ok w b (some S)).1, widgetsRequests,
      requestsQueries_append]
    refine usedAfter_append (patchWidget_usedAfter w b S) (fun S1 hS1 => ?_)
    rw [hS1]
    exact patchWidgetsFrom_usedAfter rest _ S1
end

theorem patchWidgets_used (d : Dashboard) :
    ∃ used : Finset (List Char), (patchWidgets d.widgets (some ∅)).used = some used ∧
      ∀ name : List Char, name ∈ used ↔ referencedIn (dashboardQueries d) name := by
  obtain ⟨U, hU, hmem⟩ := patchWidgetsFrom_usedAfter d.widgets false ∅
  refine ⟨U, hU, fun name => ?_⟩
  rw [hmem name]
  simp [dashboardQueries]

/-! ## The claims -/

/-- C1 (idempotence of the public patchers), evaluated where it breaks: on the
query `kubernetes_state.pod.ready{pod,namespace}` the first `PatchMonitor`
rewrites `pod` only, and a second `PatchMonitor` on the patched monitor
reports a change again and rewrites `namespace`; `PatchDashboard` does the
same on a dashboard whose only widget carries that query. -/
theorem idempotence_breaks_on_shared_delimiter :
    PatchMonitor ⟨"kubernetes_state.pod.ready\x7bpod,namespace\x7d".toList, none, none⟩ =
      (true, none,
        ⟨"kubernetes_state.pod.ready\x7bpod_name,namespace\x7d".toList, none, none⟩) ∧
    PatchMonitor ⟨"kubernetes_state.pod.ready\x7bpod_name,namespace\x7d".toList, none, none⟩ =
      (true, none,
        ⟨"kubernetes_state.pod.ready\x7bpod_name,kube_namespace\x7d".toList, none, none⟩) ∧
    (PatchDashboard
      ⟨[Widget.timeseries [⟨some "kubernetes_state.pod.ready\x7bpod,namespace\x7d".toList,
        none⟩]], []⟩).changed = true ∧
    (PatchDashboard
      ⟨[Widget.timeseries [⟨some "kubernetes_state.pod.ready\x7bpod,namespace\x7d".toList,
        none⟩]], []⟩).doc.widgets =
      [Widget.timeseries [⟨some "kubernetes_state.pod.ready\x7bpod_name,namespace\x7d".toList,
        none⟩]] ∧
    (PatchDashboard
      ⟨[Widget.timeseries [⟨some "kubernetes_state.pod.ready\x7bpod_name,namespace\x7d".toList,
        none⟩]], []⟩).changed = true ∧
    (PatchDashboard
      ⟨[Widget.timeseries [⟨some "kubernetes_state.pod.ready\x7bpod_name,namespace\x7d".toList,
        none⟩]], []⟩).doc.widgets =
      [Widget.timeseries
        [⟨some "kubernetes_state.pod.ready\x7bpod_name,kube_namespace\x7d".toList, none⟩]] :=
  ⟨by decide, by decide, by decide, rfl, by decide, rfl⟩

/-- C2 (complete tag replacement), evaluated where it breaks: in
`kubernetes_state.pod.ready{pod,namespace}` the comma is consumed by the match
`{pod,`, so `namespace` is not replaced although it stands between `,` and `}`;
the rewritten query still ends with the bounded legacy tag `,namespace}`, which
the pattern matches. -/
theorem shared_delimiter_tag_not_replaced :
    (patchQueryString "kubernetes_state.pod.ready\x7bpod,namespace\x7d".toList none).1 =
      ⟨none, "kubernetes_state.pod.ready\x7bpod_name,namespace\x7d".toList⟩ ∧
    ",namespace\x7d".toList <:+
      (patchQueryString "kubernetes_state.pod.ready\x7bpod,namespace\x7d".toList none).1.patched ∧
    ksmTagReplaceRegexp ",namespace\x7d".toList = some 11 := by
  decide

/-- C3 as stated fails: on the dashboard of scenario 5 with the query
`avg:kubernetes_state.pod.status{namespace}`, the used-variable set built by
the walk is empty and the variable keeps the prefix `namespace`; so it is not
the case that the query is rewritten, `namespace` is in the used-variable set
and the prefix of the variable becomes `kube_namespace`. -/
theorem scenario5_as_stated_fails :
    (PatchDashboard (nestedDashboard
      "avg:kubernetes_state.pod.status\x7bnamespace\x7d".toList
      ⟨"namespace".toList, some "namespace".toList⟩)).used = some ∅ ∧
    (PatchDashboard (nestedDashboard
      "avg:kubernetes_state.pod.status\x7bnamespace\x7d".toList
      ⟨"namespace".toList, some "namespace".toList⟩)).doc.templateVariables =
      [⟨"namespace".toList, some "namespace".toList⟩] ∧
    ¬ ((PatchDashboard (nestedDashboard
          "avg:kubernetes_state.pod.status\x7bnamespace\x7d".toList
          ⟨"namespace".toList, some "namespace".toList⟩)).changed = true ∧
        (PatchDashboard (nestedDashboard
          "avg:kubernetes_state.pod.status\x7bnamespace\x7d".toList
          ⟨"namespace".toList, some "namespace".toList⟩)).err = none ∧
        (PatchDashboard (nestedDashboard
          "avg:kubernetes_state.pod.status\x7bnamespace\x7d".toList
          ⟨"namespace".toList, some "namespace".toList⟩)).doc.widgets =
          (nestedDashboard "avg:kubernetes_state.pod.status\x7bkube_namespace\x7d".toList
            ⟨"namespace".toList, some "namespace".toList⟩).widgets ∧
        (∃ U : Finset (List Char),
          (PatchDashboard (nestedDashboard
            "avg:kubernetes_state.pod.status\x7bnamespace\x7d".toList
            ⟨"namespace".toList, some "namespace".toList⟩)).used = some U ∧
          "namespace".toList ∈ U) ∧
        (PatchDashboard (nestedDashboard
          "avg:kubernetes_state.pod.status\x7bnamespace\x7d".toList
          ⟨"namespace".toList, some "namespace".toList⟩)).doc.templateVariables =
          [⟨"namespace".toList, some "kube_namespace".toList⟩]) := by
  refine ⟨by decide, by decide, ?_⟩
  rintro ⟨_, _, _, _, h⟩
  revert h
  decide

/-- C3, amended: for every prefix that holds no `$`, no `{`, `,` or space
and no dot (such as `avg:`), on the dashboard of scenario 5 with the query
`<prefix>kubernetes_state.pod.status{namespace}`, `PatchDashboard` returns
`changed = true` and no error and the nested query becomes
`<prefix>kubernetes_state.pod.status{kube_namespace}`; the query holds no
`$name` reference, so the used-variable set built by the walk is empty and the
prefix of the variable stays `namespace`. -/
theorem scenario5_query_rewritten_prefix_kept (p : List Char)
    (hp : ∀ c ∈ p, c ≠ '$' ∧ isLeftDelim c = false ∧ c ≠ '.') :
    (PatchDashboard (nestedDashboard
      (p ++ "kubernetes_state.pod.status\x7bnamespace\x7d".toList)
      ⟨"namespace".toList, some "namespace".toList⟩)).changed = true ∧
    (PatchDashboard (nestedDashboard
      (p ++ "kubernetes_state.pod.status\x7bnamespace\x7d".toList)
      ⟨"namespace".toList, some "namespace".toList⟩)).err = none ∧
    (PatchDashboard (nestedDashboard
      (p ++ "kubernetes_state.pod.status\x7bnamespace\x7d".toList)
      ⟨"namespace".toList, some "namespace".toList⟩)).doc.widgets =
      (nestedDashboard (p ++ "kubernetes_state.pod.status\x7bkube_namespace\x7d".toList)
        ⟨"namespace".toList, some "namespace".toList⟩).widgets ∧
    (PatchDashboard (nestedDashboard
      (p ++ "kubernetes_state.pod.status\x7bnamespace\x7d".toList)
      ⟨"namespace".toList, some "namespace".toList⟩)).used = some ∅ ∧
    (PatchDashboard (nestedDashboard
      (p ++ "kubernetes_state.pod.status\x7bnamespace\x7d".toList)
      ⟨"namespace".toList, some "namespace".toList⟩)).doc.templateVariables =
      [⟨"namespace".toList, some "namespace".toList⟩] := by
  have hq := patchQueryString_scenario5 p ∅ hp
  have hw : patchWidgets (nestedDashboard
      (p ++ "kubernetes_state.pod.status\x7bnamespace\x7d".toList)
      ⟨"namespace".toList, some "namespace".toList⟩).widgets (some ∅) =
      ⟨true, none, (nestedDashboard
        (p ++ "kubernetes_state.pod.status\x7bkube_namespace\x7d".toList)
        ⟨"namespace".toList, some "namespace".toList⟩).widgets, some ∅⟩ := by
    simp only [patchWidgets, nestedDashboard, patchWidgetsFrom, patchWidget, patchRequests,
      patchRequestWidget, patchRequestQueries, hq]
    simp
  simp only [PatchDashboard, hw]
  simp [nestedDashboard, patchTemplateVariables]

/-- C3, amended, at the prefix `avg:`. -/
theorem scenario5_query_rewritten_prefix_kept_witness :
    (∀ c ∈ "avg:".toList, c ≠ '$' ∧ isLeftDelim c = false ∧ c ≠ '.') ∧
    (PatchDashboard (nestedDashboard
      ("avg:".toList ++ "kubernetes_state.pod.status\x7bnamespace\x7d".toList)
      ⟨"namespace".toList, some "namespace".toList⟩)).changed = true ∧
    (PatchDashboard (nestedDashboard
      ("avg:".toList ++ "kubernetes_state.pod.status\x7bnamespace\x7d".toList)
      ⟨"namespace".toList, some "namespace".toList⟩)).err = none ∧
    (PatchDashboard (nestedDashboard
      ("avg:".toList ++ "kubernetes_state.pod.status\x7bnamespace\x7d".toList)
      ⟨"namespace".toList, some "namespace".toList⟩)).doc.widgets =
      (nestedDashboard
        ("avg:".toList ++ "kubernetes_state.pod.status\x7bkube_namespace\x7d".toList)
        ⟨"namespace".toList, some "namespace".toList⟩).widgets ∧
    (PatchDashboard (nestedDashboard
      ("avg:".toList ++ "kubernetes_state.pod.status\x7bnamespace\x7d".toList)
      ⟨"namespace".toList, some "namespace".toList⟩)).used = some ∅ ∧
    (PatchDashboard (nestedDashboard
      ("avg:".toList ++ "kubernetes_state.pod.status\x7bnamespace\x7d".toList)
      ⟨"namespace".toList, some "namespace".toList⟩)).doc.templateVariables =
      [⟨"namespace".toList, some "namespace".toList⟩] :=
  ⟨by decide, scenario5_query_rewritten_prefix_kept "avg:".toList (by decide)⟩

/-- C4 (boundary sensitivity of the template-string rewriter), evaluated where
it breaks: `patchTemplateString` rewrites the tag of `my_pod.name` and of the
already-migrated `kube_job.name`, although an underscore stands right before
`pod` and `job`, and `PatchMonitor` does so to a message that holds
`{{kube_job.name}}`; the query rewriter, whose pattern is built from the same
keys with a left delimiter, leaves `{my_pod}` and `{kube_job}` as they are. -/
theorem embedded_tag_is_rewritten :
    patchTemplateString "my_pod.name".toList = ⟨none, "my_pod_name.name".toList⟩ ∧
    patchTemplateString "kube_job.name".toList = ⟨none, "kube_kube_job.name".toList⟩ ∧
    PatchMonitor
        ⟨"sum:kubernetes_state.nodes.by_condition\x7bcluster_name:foo\x7d".toList, none,
          some "Job \x7b\x7bkube_job.name\x7d\x7d failed".toList⟩ =
      (true, none,
        ⟨"sum:kubernetes_state.node.by_condition\x7bkube_cluster_name:foo\x7d".toList, none,
          some "Job \x7b\x7bkube_kube_job.name\x7d\x7d failed".toList⟩) ∧
    queryAfter "avg:kubernetes_state.pod.ready\x7bmy_pod\x7d".toList =
      "avg:kubernetes_state.pod.ready\x7bmy_pod\x7d".toList ∧
    queryAfter "avg:kubernetes_state.job.failed\x7bkube_job\x7d".toList =
      "avg:kubernetes_state.job.failed\x7bkube_job\x7d".toList := by
  decide

/-- What `patchTemplateString` does on every text: the text after the call is
the input in which some occurrences of `<tag>.name` have become
`<mapped tag>.name` and every other character is copied, whatever stands
before the tag; and a change is reported exactly when the text contains
`<tag>.name` for some legacy tag. -/
theorem template_rewriter_right_boundary_only (text : List Char) :
    Rewrite templateRule text (textAfter text) ∧
      ((patchTemplateString text).patched ≠ [] ↔
        ∃ t ∈ ksmOriginalTags, (t ++ ".name".toList) <:+: text) :=
  ⟨textAfter_rewrite text, patchTemplateString_patched text⟩

/-- C5: boundary sensitivity of the query rewriter.  For every query, the
query after `patchQueryString` is the input in which every replaced piece is
either a legacy tag standing right after one of `{`, `,`, space and right
before one of `}`, `:`, `,`, space (replaced by its mapped value between the
same two delimiters) or a legacy metric name (replaced by its new name); every
other character is copied unchanged, so a tag name in any other position is
never replaced by its mapped value. -/
theorem query_rewriter_boundary_sensitive (query : List Char) :
    Rewrite (fun m m' => tagRule m m' ∨ metricRule m m') query (queryAfter query) := by
  rw [queryAfter_eq]
  split
  · exact rewrite_tags_then_metrics query
  · exact Rewrite.refl _ _

/-- C6: fast-path purity.  For a query that does not contain
`kubernetes_state.` and any used-variable map (nil or not),
`patchQueryString` returns an empty `patched` and a nil error and leaves the map
as it was. -/
theorem fast_path_purity (query : List Char) (usedVariables : Option (Finset (List Char)))
    (h : ¬ "kubernetes_state.".toList <:+: query) :
    patchQueryString query usedVariables = (⟨none, []⟩, usedVariables) := by
  apply patchQueryString_fast
  cases hc : stringsContains query "kubernetes_state.".toList with
  | false => rfl
  | true => exact absurd ((stringsContains_iff _ _).mp hc) h

/-- C6 at `avg:some.other.metric{cluster_name:foo,$ns}` with the set `{env}`. -/
theorem fast_path_purity_witness :
    (¬ "kubernetes_state.".toList <:+:
        "avg:some.other.metric\x7bcluster_name:foo,$ns\x7d".toList) ∧
      patchQueryString "avg:some.other.metric\x7bcluster_name:foo,$ns\x7d".toList
          (some {"env".toList}) =
        (⟨none, []⟩, some {"env".toList}) :=
  ⟨by decide, fast_path_purity _ _ (by decide)⟩


/-- C7: conditional template-variable migration.  When `PatchDashboard`
succeeds, the used-variable set collected by the walk holds exactly the names
referenced as `$name` by a widget query of the same dashboard that contains
`kubernetes_state.`; the template variables after the call correspond one to
one, in order, to those before it; each keeps its name, and its prefix is
replaced by `ksmTagMapping[prefix]` exactly when its name is in that set and
its prefix is set and is a key of `ksmTagMapping`; otherwise the prefix is as
it was. -/
theorem conditional_template_migration (d : Dashboard) (h : (PatchDashboard d).err = none) :
    ∃ used : Finset (List Char), (patchWidgets d.widgets (some ∅)).used = some used ∧
      (∀ name : List Char, name ∈ used ↔ referencedIn (dashboardQueries d) name) ∧
      List.Forall₂ (prefixMigrated used) d.templateVariables
        (PatchDashboard d).doc.templateVariables := by
  have herr : (patchWidgetsFrom d.widgets false (some ∅)).err = none := by
    cases hw : (patchWidgetsFrom d.widgets false (some ∅)).err with
    | none => rfl
    | some e =>
      unfold PatchDashboard at h
      simp only [patchWidgets, hw] at h
      cases h
  have hu : (PatchDashboard d).used = (patchWidgets d.widgets (some ∅)).used := by
    unfold PatchDashboard
    simp only [patchWidgets, herr]
  obtain ⟨U, hU, hmem⟩ := patchWidgets_used d
  refine ⟨U, hU, hmem, ?_⟩
  rw [PatchDashboard_templateVariables, hu, hU]
  exact patchTemplateVariables_forall₂ U d.templateVariables _

/-- C7 on a dashboard whose query references `$namespace`: the variable
`namespace` gets the prefix `kube_namespace`, and the variable `unused` of
scenario 6 keeps the prefix `namespace`. -/
theorem conditional_template_migration_witness :
    (PatchDashboard referencingDashboard).err = none ∧
      (∃ used : Finset (List Char),
        (patchWidgets referencingDashboard.widgets (some ∅)).used = some used ∧
        (∀ name : List Char,
          name ∈ used ↔ referencedIn (dashboardQueries referencingDashboard) name) ∧
        List.Forall₂ (prefixMigrated used) referencingDashboard.templateVariables
          (PatchDashboard referencingDashboard).doc.templateVariables) ∧
      (patchWidgets referencingDashboard.widgets (some ∅)).used =
        some {"namespace".toList} ∧
      (PatchDashboard referencingDashboard).doc.templateVariables =
        [⟨"namespace".toList, some "kube_namespace".toList⟩,
          ⟨"unused".toList, some "namespace".toList⟩] :=
  ⟨by decide, conditional_template_migration _ (by decide), by decide, by decide⟩

/-- C8: query/text coupling in `PatchMonitor`.  If `patchQueryString` leaves
the query unchanged, `PatchMonitor` returns `false` with no error and the
monitor is as it was, whatever its name and message hold; if the query is
changed, `PatchMonitor` returns `true` with no error, the query is the
rewritten query, and name and message are each, when present, replaced by
their `patchTemplateString` rewrite. -/
theorem monitor_query_text_coupling (m : Monitor) :
    (queryAfter m.query = m.query → PatchMonitor m = (false, none, m)) ∧
      (queryAfter m.query ≠ m.query →
        PatchMonitor m =
          (true, none,
            { query := queryAfter m.query, name := m.name.map textAfter,
              message := m.message.map textAfter })) := by
  rw [PatchMonitor_eq]
  unfold queryAfter
  by_cases hp : (patchQueryString m.query none).1.patched = []
  · simp [hp]
  · have hne := (patched_ne_query m.query none hp).2
    simp [hp, hne]

/-- C8 on two monitors: the query of scenario 1 with the message
`Alert for {{pod.name}}`, and a query without `kubernetes_state.` with the name
`pod.name`. -/
theorem monitor_query_text_coupling_witness :
    (queryAfter "sum:kubernetes_state.nodes.by_condition\x7bcluster_name:foo\x7d".toList ≠
        "sum:kubernetes_state.nodes.by_condition\x7bcluster_name:foo\x7d".toList ∧
      PatchMonitor
          ⟨"sum:kubernetes_state.nodes.by_condition\x7bcluster_name:foo\x7d".toList, none,
            some "Alert for \x7b\x7bpod.name\x7d\x7d".toList⟩ =
        (true, none,
          ⟨"sum:kubernetes_state.node.by_condition\x7bkube_cluster_name:foo\x7d".toList, none,
            some "Alert for \x7b\x7bpod_name.name\x7d\x7d".toList⟩)) ∧
    (queryAfter "avg:system.cpu.user\x7bpod:a\x7d".toList =
        "avg:system.cpu.user\x7bpod:a\x7d".toList ∧
      PatchMonitor ⟨"avg:system.cpu.user\x7bpod:a\x7d".toList, some "pod.name".toList, none⟩ =
        (false, none,
          ⟨"avg:system.cpu.user\x7bpod:a\x7d".toList, some "pod.name".toList, none⟩)) :=
  ⟨⟨by decide,
      ((monitor_query_text_coupling
        ⟨"sum:kubernetes_state.nodes.by_condition\x7bcluster_name:foo\x7d".toList, none,
          some "Alert for \x7b\x7bpod.name\x7d\x7d".toList⟩).2 (by decide)).trans
        (by decide)⟩,
    ⟨by decide,
      (monitor_query_text_coupling
        ⟨"avg:system.cpu.user\x7bpod:a\x7d".toList, some "pod.name".toList, none⟩).1
        (by decide)⟩⟩

/-- C9: the `MappingError` branch is unreachable.  In every string, every
match of `ksmTagReplaceRegexp` without its first and last character, and every
match of `templateVarRegexp` without its last five characters, is a key of
`ksmTagMapping`; `patchQueryString` and `patchTemplateString` return a nil
error on every input, and so do `PatchMonitor` and `PatchDashboard`. -/
theorem mapping_error_unreachable :
    (∀ s : List Char, ∀ m ∈ findAllString ksmTagReplaceRegexp s,
      (ksmTagMapping.lookup ((m.drop 1).take (m.length - 2))).isSome = true) ∧
    (∀ s : List Char, ∀ m ∈ findAllString templateVarRegexp s,
      (ksmTagMapping.lookup (m.take (m.length - 5))).isSome = true) ∧
    (∀ (query : List Char) (usedVariables : Option (Finset (List Char))),
      (patchQueryString query usedVariables).1.err = none) ∧
    (∀ text : List Char, (patchTemplateString text).err = none) ∧
    (∀ monitor : Monitor, (PatchMonitor monitor).2.1 = none) ∧
    (∀ dashboard : Dashboard, (PatchDashboard dashboard).err = none) := by
  refine ⟨?_, ?_, patchQueryString_err, patchTemplateString_err, ?_, PatchDashboard_err⟩
  · intro s m hm
    obtain ⟨s', n, _, hf, he⟩ := findAllString_mem _ s m hm
    obtain ⟨d, e, t, rest, hs, _, _, ht, hk⟩ := tagRegexpMatchAt_some hf
    subst hs
    rw [hk, take_tag_match] at he
    subst he
    have : ((d :: (t ++ [e])).drop 1).take ((d :: (t ++ [e])).length - 2) = t := by simp
    rw [this]
    exact ksmTagMapping_lookup_key t ht
  · intro s m hm
    obtain ⟨s', n, _, hf, he⟩ := findAllString_mem _ s m hm
    obtain ⟨t, rest, hs, ht, hk⟩ := templateRegexpMatchAt_some hf
    subst hs
    have htake : (t ++ ".name".toList ++ rest).take (n + 1) = t ++ ".name".toList := by
      rw [hk]; exact List.take_left' (by simp)
    rw [htake] at he
    subst he
    have : (t ++ ".name".toList).take ((t ++ ".name".toList).length - 5) = t := by simp
    rw [this]
    exact ksmTagMapping_lookup_key t ht
  · intro monitor
    rw [PatchMonitor_eq]
    split <;> rfl

/-- C10 as stated fails on the fast path: for
`avg:some.other.metric{cluster_name:foo}` tag substitution followed by metric
renaming gives a different string, yet `patchQueryString` reports no change. -/
theorem changed_signal_fast_path :
    (patchQueryString "avg:some.other.metric\x7bcluster_name:foo\x7d".toList none).1.patched =
      [] ∧
    ksmMetricsReplacer (replaceTags "avg:some.other.metric\x7bcluster_name:foo\x7d".toList).2 =
      "avg:some.other.metric\x7bkube_cluster_name:foo\x7d".toList ∧
    ¬ ((patchQueryString "avg:some.other.metric\x7bcluster_name:foo\x7d".toList none).1.patched
          ≠ [] ↔
        ksmMetricsReplacer
            (replaceTags "avg:some.other.metric\x7bcluster_name:foo\x7d".toList).2 ≠
          "avg:some.other.metric\x7bcluster_name:foo\x7d".toList) := by
  decide

/-- C10, amended: for every query that contains `kubernetes_state.`,
`patchQueryString` reports a change (non-empty `patched`) if and only if tag
substitution followed by metric renaming gives a string different from the
query, and `patched` is then exactly that string; for a query without
`kubernetes_state.` no change is reported; and whenever no change is reported
the caller's query stays equal to the input. -/
theorem changed_signal_sound (query : List Char) (usedVariables : Option (Finset (List Char))) :
    ("kubernetes_state.".toList <:+: query →
      ((patchQueryString query usedVariables).1.patched ≠ [] ↔
        ksmMetricsReplacer (replaceTags query).2 ≠ query)) ∧
    (¬ "kubernetes_state.".toList <:+: query →
      (patchQueryString query usedVariables).1.patched = []) ∧
    ((patchQueryString query usedVariables).1.patched ≠ [] →
      (patchQueryString query usedVariables).1.patched =
        ksmMetricsReplacer (replaceTags query).2) ∧
    ((patchQueryString query usedVariables).1.patched = [] → queryAfter query = query) := by
  refine ⟨?_, ?_, fun h => (patched_ne_query query usedVariables h).1, ?_⟩
  · intro hc
    have hc' := (stringsContains_iff _ _).mpr hc
    have hq : query ≠ [] := by
      intro h; subst h
      have := List.eq_nil_of_infix_nil hc
      simp at this
    rw [patchQueryString_slow query usedVariables hc']
    simp only
    by_cases hne : ksmMetricsReplacer (replaceTags query).2 = query
    · simp [hne]
    · simp [hne, ksmMetricsReplacer_replaceTags_ne_nil query hq]
  · intro hc
    have hc' : stringsContains query "kubernetes_state.".toList = false := by
      cases hx : stringsContains query "kubernetes_state.".toList with
      | false => rfl
      | true => exact absurd ((stringsContains_iff _ _).mp hx) hc
    rw [patchQueryString_fast query usedVariables hc']
  · intro h
    have h' : (patchQueryString query none).1.patched = [] := by
      cases hx : stringsContains query "kubernetes_state.".toList with
      | false => rw [patchQueryString_fast query none hx]
      | true =>
        rw [patchQueryString_slow query usedVariables hx] at h
        rw [patchQueryString_slow query none hx]
        exact h
    unfold queryAfter
    simp [h']

/-- C10, amended, on the query of scenario 1 (a change is reported, with the
rewritten string) and on `avg:some.other.metric{cluster_name:foo}` (none is). -/
theorem changed_signal_sound_witness :
    ("kubernetes_state.".toList <:+:
        "sum:kubernetes_state.nodes.by_condition\x7bcluster_name:foo\x7d".toList ∧
      ((patchQueryString "sum:kubernetes_state.nodes.by_condition\x7bcluster_name:foo\x7d".toList
            none).1.patched ≠ [] ↔
        ksmMetricsReplacer
            (replaceTags
              "sum:kubernetes_state.nodes.by_condition\x7bcluster_name:foo\x7d".toList).2 ≠
          "sum:kubernetes_state.nodes.by_condition\x7bcluster_name:foo\x7d".toList)) ∧
    ((¬ "kubernetes_state.".toList <:+:
        "avg:some.other.metric\x7bcluster_name:foo\x7d".toList) ∧
      (patchQueryString "avg:some.other.metric\x7bcluster_name:foo\x7d".toList
        none).1.patched = []) :=
  ⟨⟨by decide, (changed_signal_sound _ none).1 (by decide)⟩,
    ⟨by decide, (changed_signal_sound _ none).2.1 (by decide)⟩⟩

/-- C11: metric renaming in `patchQueryString`.  For every query that contains
`kubernetes_state.`, the query after the call is the result of the single-pass
replacer on the tag-substituted string, and that result equals the
tag-substituted string on which the two literal replacements of the rename
table have been applied one after the other; it differs from the
tag-substituted string only by legacy metric names replaced by their new
names, and no legacy metric name remains in it.  The query of scenario 1
becomes `sum:kubernetes_state.node.by_condition{kube_cluster_name:foo}`, with
a change reported. -/
theorem metric_renaming_refines_spec (query : List Char)
    (h : "kubernetes_state.".toList <:+: query) :
    queryAfter query = ksmMetricsReplacer (replaceTags query).2 ∧
    ksmMetricsReplacer (replaceTags query).2 = specMetricRename (replaceTags query).2 ∧
    Rewrite metricRule (replaceTags query).2 (queryAfter query) ∧
    (∀ p ∈ ksmMetricsPairs, ¬ p.1 <:+: queryAfter query) ∧
    (patchQueryString
        "sum:kubernetes_state.nodes.by_condition\x7bcluster_name:foo\x7d".toList none).1 =
      ⟨none, "sum:kubernetes_state.node.by_condition\x7bkube_cluster_name:foo\x7d".toList⟩ := by
  have hq : queryAfter query = ksmMetricsReplacer (replaceTags query).2 := by
    rw [queryAfter_eq, if_pos ((stringsContains_iff _ _).mpr h)]
  refine ⟨hq, ksmMetricsReplacer_eq_spec _, ?_, ?_, by decide⟩
  · rw [hq]; exact ksmMetricsReplacer_rewrite _
  · rw [hq]; exact ksmMetricsReplacer_no_old _

/-- C11 on a query that holds both legacy metric names and a legacy tag. -/
theorem metric_renaming_refines_spec_witness :
    "kubernetes_state.".toList <:+:
        ("kubernetes_state.persistentvolumes.by_phase\x7bphase:a\x7d".toList ++
          "/kubernetes_state.nodes.by_condition\x7bpod\x7d".toList) ∧
      queryAfter ("kubernetes_state.persistentvolumes.by_phase\x7bphase:a\x7d".toList ++
          "/kubernetes_state.nodes.by_condition\x7bpod\x7d".toList) =
        specMetricRename (replaceTags
          ("kubernetes_state.persistentvolumes.by_phase\x7bphase:a\x7d".toList ++
            "/kubernetes_state.nodes.by_condition\x7bpod\x7d".toList)).2 ∧
      queryAfter ("kubernetes_state.persistentvolumes.by_phase\x7bphase:a\x7d".toList ++
          "/kubernetes_state.nodes.by_condition\x7bpod\x7d".toList) =
        "kubernetes_state.persistentvolume.by_phase\x7bpod_phase:a\x7d".toList ++
          "/kubernetes_state.node.by_condition\x7bpod_name\x7d".toList :=
  ⟨by decide,
    (metric_renaming_refines_spec _ (by decide)).1.trans
      (metric_renaming_refines_spec _ (by decide)).2.1,
    by decide⟩

/-- C12: used-variable collection.  For every query that contains
`kubernetes_state.` and every non-nil set `S`, the set after
`patchQueryString` holds every element of `S`, and a name is in it exactly when
it is in `S` or `$name` occurs in the query with `name` a longest run of
characters of `[a-zA-Z0-9_-]`; no condition is put on what the substitutions
do to the query. -/
theorem used_variable_collection (query : List Char) (S : Finset (List Char))
    (h : "kubernetes_state.".toList <:+: query) :
    ∃ S' : Finset (List Char), (patchQueryString query (some S)).2 = some S' ∧ S ⊆ S' ∧
      ∀ name : List Char, name ∈ S' ↔ name ∈ S ∨ IsVariableReference query name := by
  refine ⟨addVariables (findAllString variableReferenceRegexp query) S, ?_, ?_, ?_⟩
  · rw [patchQueryString_slow query (some S) ((stringsContains_iff _ _).mpr h)]
    rfl
  · intro x hx
    exact (mem_used_after query S x).mpr (Or.inl hx)
  · exact mem_used_after query S

/-- C12 on `avg:kubernetes_state.pod.ready{$ns,env:$env-1}` with the set `{old}`. -/
theorem used_variable_collection_witness :
    "kubernetes_state.".toList <:+:
        "avg:kubernetes_state.pod.ready\x7b$ns,env:$env-1\x7d".toList ∧
      (∃ S' : Finset (List Char),
        (patchQueryString "avg:kubernetes_state.pod.ready\x7b$ns,env:$env-1\x7d".toList
          (some {"old".toList})).2 = some S' ∧
        {"old".toList} ⊆ S' ∧
        ∀ name : List Char, name ∈ S' ↔
          name ∈ ({"old".toList} : Finset (List Char)) ∨
            IsVariableReference "avg:kubernetes_state.pod.ready\x7b$ns,env:$env-1\x7d".toList
              name) ∧
      (patchQueryString "avg:kubernetes_state.pod.ready\x7b$ns,env:$env-1\x7d".toList
          (some {"old".toList})).2 =
        some {"env-1".toList, "ns".toList, "old".toList} :=
  ⟨by decide, used_variable_collection _ _ (by decide), rfl⟩

/-- C13: the widget-tree walk.  `patchWidgets` is total; for every list of
widgets, of any nesting depth, it returns no error and a tree of the same
shape, equal to the input in which every request of every Change, Table,
QueryValue, Timeseries, Toplist or TreeMap widget, at any depth below Group
widgets, is the request after `patchRequestWidget` and every widget of another
kind is as it was; the changed flag is the logical OR of the changed flags of
all those requests, `false` for an empty list.  What `patchRequestWidget` makes
of a request does not depend on the used-variable map it is given. -/
theorem widget_tree_walk (widgets : List Widget) (used : Option (Finset (List Char))) :
    (patchWidgets widgets used).err = none ∧
    (patchWidgets widgets used).doc = rewriteWidgets widgets ∧
    sameShapes widgets (patchWidgets widgets used).doc = true ∧
    (patchWidgets widgets used).changed = (widgetsRequests widgets).any requestChanged ∧
    (patchWidgets [] used).changed = false ∧
    (∀ (req : Request) (u : Option (Finset (List Char))),
      (patchRequestWidget req u).doc = rewriteRequest req ∧
        (patchRequestWidget req u).changed = requestChanged req) := by
  have h := patchWidgetsFrom_eq widgets false used
  refine ⟨(patchWidgetsFrom_ok widgets false used).1, h.1, ?_, ?_, rfl, patchRequestWidget_indep⟩
  · unfold patchWidgets
    rw [h.1]
    exact sameShapes_rewriteWidgets widgets
  · unfold patchWidgets
    rw [h.2]
    simp

/-- C14: request rewriting.  For every request, `patchRequestWidget` returns no
error; the inline query, when present, becomes the query after
`patchQueryString`; each entry of `Queries` that is a metric query definition
gets the query after `patchQueryString` and every other entry is as it was, in
the same order; the changed flag is the logical OR of the change reports of
all delegated `patchQueryString` calls, and such a report does not depend on
the used-variable map. -/
theorem request_rewriting (req : Request) (used : Option (Finset (List Char))) :
    (patchRequestWidget req used).err = none ∧
    (patchRequestWidget req used).doc =
      { q := req.q.map queryAfter,
        queries := req.queries.map (List.map rewriteQueryDefinition) } ∧
    (patchRequestWidget req used).changed =
      ((req.q.map queryReportsChange).getD false ||
        (req.queries.getD []).any definitionReportsChange) ∧
    (∀ (q : List Char) (u : Option (Finset (List Char))),
      (patchQueryString q u).1.patched ≠ [] ↔ queryReportsChange q = true) :=
  ⟨(patchRequestWidget_ok req used).1, (patchRequestWidget_eq req used).1,
    (patchRequestWidget_eq req used).2, queryReportsChange_iff⟩

/-- C15: independence from the iteration order of the map.  For every order
of the keys of `ksmTagMapping` in the alternation of `ksmTagReplaceRegexp` and
every order in that of `templateVarRegexp`, `patchQueryString` and
`patchTemplateString` return the same result on every input; at any position
at most one key is followed by a right delimiter, and at most one by `.name`. -/
theorem iteration_order_independent (tags tags' : List (List Char))
    (h : tags.Perm ksmOriginalTags) (h' : tags'.Perm ksmOriginalTags) :
    (∀ (query : List Char) (usedVariables : Option (Finset (List Char))),
      patchQueryStringWith tags query usedVariables = patchQueryString query usedVariables) ∧
    (∀ text : List Char, patchTemplateStringWith tags' text = patchTemplateString text) ∧
    ksmOriginalTags.length = 15 ∧
    (∀ a ∈ ksmOriginalTags, ∀ b ∈ ksmOriginalTags, ∀ (ea eb : Char) (ra rb : List Char),
      isRightDelim ea = true → isRightDelim eb = true → a ++ ea :: ra = b ++ eb :: rb →
        a = b) ∧
    (∀ a ∈ ksmOriginalTags, ∀ b ∈ ksmOriginalTags, ∀ s : List Char,
      (a ++ ".name".toList) <+: s → (b ++ ".name".toList) <+: s → a = b) :=
  ⟨patchQueryStringWith_perm tags h, patchTemplateStringWith_perm tags' h', by decide,
    fun a ha b hb ea eb ra rb hea heb hs =>
      key_before_delimiter_unique a b ha hb ea eb ra rb hea heb hs,
    fun a ha b hb s h1 h2 => key_before_name_unique a b ha hb s h1 h2⟩

/-- C15 with the keys in reverse order, on `{job_name}` and on `job_name.name`. -/
theorem iteration_order_independent_witness :
    ksmOriginalTags.reverse.Perm ksmOriginalTags ∧
      patchQueryStringWith ksmOriginalTags.reverse
          "kubernetes_state.job.failed\x7bjob_name\x7d".toList none =
        patchQueryString "kubernetes_state.job.failed\x7bjob_name\x7d".toList none ∧
      patchTemplateStringWith ksmOriginalTags.reverse "job_name.name".toList =
        patchTemplateString "job_name.name".toList :=
  ⟨List.reverse_perm _,
    (iteration_order_independent ksmOriginalTags.reverse ksmOriginalTags.reverse
      (List.reverse_perm _) (List.reverse_perm _)).1 _ _,
    (iteration_order_independent ksmOriginalTags.reverse ksmOriginalTags.reverse
      (List.reverse_perm _) (List.reverse_perm _)).2.1 _⟩

end Ksm
